import Mathlib

/-!
Verification of the compiletools core against its specification.

The Python source is shallowly embedded: Python dicts of strings become
association lists with Python-dict update semantics, Python string
processing (including the `re.sub` calls of `simple_preprocessor.py`)
becomes explicit scanners over `List Char`, and the stateful classes
become explicit state threading.  Global caches are modelled as explicit
cache-state values threaded through the call sequence.

Scanners that consume a variable number of characters carry an explicit
fuel argument; callers pass the input length (every step consumes at
least one character, so the fuel never runs out on real inputs).
-/

namespace Compiletools

/-! ## Macro environments

`dict[sz.Str, sz.Str]` from the source.  Modelled as an association list
with Python-dict semantics: update keeps the position of an existing key,
a fresh key is appended, deletion removes the pair, lookup is by key.
-/

abbrev Env := List (String × String)

def envLookup : Env → String → Option String
  | [], _ => none
  | p :: rest, k => if p.1 == k then some p.2 else envLookup rest k

/-- Python `k in d`. -/
def envContains (e : Env) (k : String) : Bool :=
  (envLookup e k).isSome

/-- Python `d[k] = v`. -/
def envInsert (e : Env) (k v : String) : Env :=
  if e.any (fun p => p.1 == k) then
    e.map (fun p => if p.1 == k then (k, v) else p)
  else
    e ++ [(k, v)]

/-- Python `del d[k]`. -/
def envErase (e : Env) (k : String) : Env :=
  e.filter (fun p => p.1 != k)

/-- A Python dict never holds two pairs with the same key. -/
def NodupKeys (e : Env) : Prop :=
  (e.map Prod.fst).Nodup

/-- Two environments are dict-equal when they agree on every lookup
(Python `dict.__eq__` ignores insertion order). -/
def envEquiv (e₁ e₂ : Env) : Prop :=
  ∀ k, envLookup e₁ k = envLookup e₂ k

/-- Boolean content equality of two pair lists; this is equality of the
`frozenset((k, v) for ...)` cache keys of `preprocessing_cache.py`. -/
def envSetEq (a b : Env) : Bool :=
  a.all (fun p => b.contains p) && b.all (fun p => a.contains p)

/-! ## Character classes -/

/-- Python `\s` for ASCII text: space, tab, newline, carriage return,
form feed, vertical tab. -/
def isPyWs (c : Char) : Bool :=
  c == ' ' || c == '\t' || c == '\n' || c == '\x0d' || c == '\x0c' || c == '\x0b'

/-- The whitespace set of `stringzilla_utils.strip_sz` (space, tab, CR, LF). -/
def isSzWs (c : Char) : Bool :=
  c == ' ' || c == '\t' || c == '\x0d' || c == '\n'

/-- `is_alpha_or_underscore_sz`: ASCII letter or underscore. -/
def isAlphaU (c : Char) : Bool :=
  (('a' ≤ c && c ≤ 'z') || ('A' ≤ c && c ≤ 'Z')) || c == '_'

def isDigitC (c : Char) : Bool :=
  '0' ≤ c && c ≤ '9'

/-- Regex `\w`: letter, digit or underscore. -/
def isWordC (c : Char) : Bool :=
  isAlphaU c || isDigitC c

/-- Identifier continuation in `_expand_macros_sz`: letter, underscore or digit. -/
def isIdentCont (c : Char) : Bool :=
  isAlphaU c || isDigitC c

def isHexDigit (c : Char) : Bool :=
  isDigitC c || ('a' ≤ c && c ≤ 'f') || ('A' ≤ c && c ≤ 'F')

def isOctDigit (c : Char) : Bool :=
  '0' ≤ c && c ≤ '7'

def isBinDigit (c : Char) : Bool :=
  c == '0' || c == '1'

def isSuffixChar (c : Char) : Bool :=
  c == 'L' || c == 'l' || c == 'U' || c == 'u'

/-! ## Small string helpers (over `List Char`) -/

/-- Python `str.strip()` (ASCII whitespace). -/
def pyStrip (l : List Char) : List Char :=
  ((l.dropWhile isPyWs).reverse.dropWhile isPyWs).reverse

/-- `strip_sz` from `stringzilla_utils.py` (strips space, tab, CR, LF). -/
def szStrip (l : List Char) : List Char :=
  ((l.dropWhile isSzWs).reverse.dropWhile isSzWs).reverse

/-- Python `str.rstrip('\\')`. -/
def rstripBackslash (l : List Char) : List Char :=
  (l.reverse.dropWhile (fun c => c == '\\')).reverse

/-- Index of the first occurrence of `pat` in `l` (Python `str.find`). -/
def findSub (pat l : List Char) : Option Nat :=
  go l 0
where
  go : List Char → Nat → Option Nat
    | [], i => if pat.isEmpty ∧ i == 0 then some 0 else none
    | l@(_ :: rest), i =>
      if pat.isPrefixOf l then some i else go rest (i + 1)

/-- Python `str.replace(pat, rep)`: replace every non-overlapping
occurrence, scanning left to right.  `fuel` ≥ input length. -/
def pyReplace (pat rep : List Char) : Nat → List Char → List Char
  | 0, l => l
  | _ + 1, [] => []
  | fuel + 1, l@(c :: rest) =>
    if pat.isPrefixOf l ∧ pat ≠ [] then
      rep ++ pyReplace pat rep fuel (l.drop pat.length)
    else
      c :: pyReplace pat rep fuel rest

/-- Python `" ".join(s.split())`: collapse whitespace runs to single
spaces, dropping leading/trailing whitespace. -/
def wsNormalize (l : List Char) : List Char :=
  go (l.dropWhile isPyWs) (l.length + 1)
where
  go : List Char → Nat → List Char
    | _, 0 => []
    | [], _ => []
    | c :: rest, fuel + 1 =>
      if isPyWs c then
        let rest' := rest.dropWhile isPyWs
        if rest'.isEmpty then [] else ' ' :: go rest' fuel
      else
        c :: go rest fuel

/-- Parse a nonempty digit run as a natural number (decimal). -/
def digitsToNat (l : List Char) : Nat :=
  l.foldl (fun acc c => acc * 10 + (c.toNat - '0'.toNat)) 0

def hexVal (c : Char) : Nat :=
  if isDigitC c then c.toNat - '0'.toNat
  else if 'a' ≤ c && c ≤ 'f' then c.toNat - 'a'.toNat + 10
  else if 'A' ≤ c && c ≤ 'F' then c.toNat - 'A'.toNat + 10
  else 0

def hexToNat (l : List Char) : Nat :=
  l.foldl (fun acc c => acc * 16 + hexVal c) 0

def octToNat (l : List Char) : Nat :=
  l.foldl (fun acc c => acc * 8 + (c.toNat - '0'.toNat)) 0

def binToNat (l : List Char) : Nat :=
  l.foldl (fun acc c => acc * 2 + (c.toNat - '0'.toNat)) 0

/-- Decimal digits of `n` (Python `str(int)` for nonnegative values). -/
def natToDigits (n : Nat) : List Char :=
  (Nat.toDigits 10 n)

/-! ## `SimplePreprocessor._strip_comments_sz`

Truncates at the first `//`, then (when a `/*` is present) replaces every
`/\*.*?\*/` block (no newline inside, as the regex lacks DOTALL) by a
space and collapses whitespace.
-/

/-- Position of the nearest `*/` with no newline before it (the
non-greedy `.*?\*/` of the block-comment regex). -/
def findBlockEnd : List Char → Option Nat
  | [] => none
  | l@(c :: rest) =>
    if ['*', '/'].isPrefixOf l then some 0
    else if c == '\n' then none
    else (findBlockEnd rest).map (· + 1)

/-- `re.sub(r"/\*.*?\*/", " ", s)`. -/
def blockCommentSub : Nat → List Char → List Char
  | 0, l => l
  | _ + 1, [] => []
  | fuel + 1, l@(c :: rest) =>
    if ['/', '*'].isPrefixOf l then
      match findBlockEnd (l.drop 2) with
      | some i => ' ' :: blockCommentSub fuel (l.drop (2 + i + 2))
      | none => c :: blockCommentSub fuel rest
    else c :: blockCommentSub fuel rest

/-- `blockCommentSub` with the fuel supplied from the input length. -/
def blockCommentSubS (l : List Char) : List Char :=
  blockCommentSub l.length l

def stripCommentsSz (s : String) : String :=
  let l := s.data
  let l1 :=
    match findSub ['/', '/'] l with
    | some i => szStrip (l.take i)
    | none => l
  if (findSub ['/', '*'] l1).isSome then
    String.mk (wsNormalize (blockCommentSubS l1))
  else
    String.mk l1

/-! ## `SimplePreprocessor._expand_defined`

Two sequential `re.sub` passes: `defined\s*\(\s*ID\s*\)` then
`defined\s+ID`, each occurrence replaced by `1`/`0` according to whether
`ID` is a key of the macro dict.  Macro reads are abstracted as a lookup
function `look` (the source reads `self.macros` only by `in` and `[]`).
-/

/-- Maximal regex identifier `[A-Za-z_][A-Za-z0-9_]*` at the head. -/
def identAt : List Char → Option (List Char × List Char)
  | [] => none
  | c :: rest =>
    if isAlphaU c then some (c :: rest.takeWhile isWordC, rest.dropWhile isWordC)
    else none

def tryDefinedParen (look : String → Option String) (l : List Char) :
    Option (List Char × List Char) :=
  if ("defined".data).isPrefixOf l then
    match (l.drop 7).dropWhile isPyWs with
    | '(' :: r2 =>
      match identAt (r2.dropWhile isPyWs) with
      | some (ident, r4) =>
        match r4.dropWhile isPyWs with
        | ')' :: r6 =>
          some (if (look (String.mk ident)).isSome then ['1'] else ['0'], r6)
        | _ => none
      | none => none
    | _ => none
  else none

def subDefinedParen (look : String → Option String) : Nat → List Char → List Char
  | 0, l => l
  | _ + 1, [] => []
  | fuel + 1, l@(c :: rest) =>
    match tryDefinedParen look l with
    | some (rep, r) => rep ++ subDefinedParen look fuel r
    | none => c :: subDefinedParen look fuel rest

def tryDefinedSpace (look : String → Option String) (l : List Char) :
    Option (List Char × List Char) :=
  if ("defined".data).isPrefixOf l then
    match l.drop 7 with
    | c :: _ =>
      if isPyWs c then
        match identAt ((l.drop 7).dropWhile isPyWs) with
        | some (ident, r) =>
          some (if (look (String.mk ident)).isSome then ['1'] else ['0'], r)
        | none => none
      else none
    | [] => none
  else none

def subDefinedSpace (look : String → Option String) : Nat → List Char → List Char
  | 0, l => l
  | _ + 1, [] => []
  | fuel + 1, l@(c :: rest) =>
    match tryDefinedSpace look l with
    | some (rep, r) => rep ++ subDefinedSpace look fuel r
    | none => c :: subDefinedSpace look fuel rest

/-! ## `SimplePreprocessor._expand_macros_sz` and the recursive driver -/

/-- The identifier scan of `_expand_macros_sz`: at each identifier
`[A-Za-z_][A-Za-z_0-9]*`, skip the reserved words `and`/`or`/`not`,
splice in the macro value when defined (scanning resumes after the
spliced value), leave the identifier otherwise. -/
def expandIdsScan (look : String → Option String) : Nat → List Char → List Char
  | 0, l => l
  | _ + 1, [] => []
  | fuel + 1, c :: cs =>
    if isAlphaU c then
      let ident := c :: cs.takeWhile isIdentCont
      let rest := cs.dropWhile isIdentCont
      let idStr := String.mk ident
      if idStr == "and" || idStr == "or" || idStr == "not" then
        ident ++ expandIdsScan look fuel rest
      else
        match look idStr with
        | some v => v.data ++ expandIdsScan look fuel rest
        | none => ident ++ expandIdsScan look fuel rest
    else c :: expandIdsScan look fuel cs

def subDefinedParenS (look : String → Option String) (l : List Char) : List Char :=
  subDefinedParen look l.length l

def subDefinedSpaceS (look : String → Option String) (l : List Char) : List Char :=
  subDefinedSpace look l.length l

def expandIdsScanS (look : String → Option String) (l : List Char) : List Char :=
  expandIdsScan look l.length l

def expandMacrosOnce (look : String → Option String) (s : String) : String :=
  String.mk (expandIdsScanS look (subDefinedSpaceS look (subDefinedParenS look s.data)))

/-- `_recursive_expand_macros_sz`: expand until unchanged, at most 10
iterations, starting from previous = "". -/
def recExpandMacros (look : String → Option String) :
    Nat → String → String → String
  | 0, _, e => e
  | n + 1, prev, e =>
    if e == prev then e
    else recExpandMacros look n e (expandMacrosOnce look e)

def recursiveExpandMacros (look : String → Option String) (s : String) : String :=
  recExpandMacros look 10 "" s

/-! ## `SimplePreprocessor._safe_eval`: the `re.sub` normalisation chain -/

/-- `re.sub(r'\\\s*', ' ', s)`. -/
def backslashWsSub : Nat → List Char → List Char
  | 0, l => l
  | _ + 1, [] => []
  | fuel + 1, c :: cs =>
    if c == '\\' then ' ' :: backslashWsSub fuel (cs.dropWhile isPyWs)
    else c :: backslashWsSub fuel cs

/-- One attempt of `(\d+)\s*\(\s*(\d+)\s*\)` at the head. -/
def tryParenMul (l : List Char) : Option (List Char × List Char) :=
  match l with
  | [] => none
  | c :: _ =>
    if isDigitC c then
      let d1 := l.takeWhile isDigitC
      match (l.dropWhile isDigitC).dropWhile isPyWs with
      | '(' :: r2 =>
        let r3 := r2.dropWhile isPyWs
        let d2 := r3.takeWhile isDigitC
        if d2.isEmpty then none
        else
          match (r3.dropWhile isDigitC).dropWhile isPyWs with
          | ')' :: r5 => some (d1 ++ ' ' :: '*' :: ' ' :: d2, r5)
          | _ => none
      | _ => none
    else none

/-- `re.sub(r'(\d+)\s*\(\s*(\d+)\s*\)', r'\1 * \2', s)`. -/
def parenMulScan : Nat → List Char → List Char
  | 0, l => l
  | _ + 1, [] => []
  | fuel + 1, l@(c :: rest) =>
    match tryParenMul l with
    | some (rep, r) => rep ++ parenMulScan fuel r
    | none => c :: parenMulScan fuel rest

/-- One attempt of `(\d+)[LlUu]+\b` at the head: a digit run, a nonempty
suffix run, then a word boundary (the greedy suffix cannot backtrack to
a shorter run, since the following character would then be a word
character). -/
def trySuffix (l : List Char) : Option (List Char × List Char) :=
  match l with
  | [] => none
  | c :: _ =>
    if isDigitC c then
      let d := l.takeWhile isDigitC
      let r := l.dropWhile isDigitC
      let s := r.takeWhile isSuffixChar
      let r2 := r.dropWhile isSuffixChar
      if s.isEmpty then none
      else
        match r2 with
        | [] => some (d, [])
        | c2 :: _ => if isWordC c2 then none else some (d, r2)
    else none

/-- `re.sub(r'(\d+)[LlUu]+\b', r'\1', s)`. -/
def suffixScan : Nat → List Char → List Char
  | 0, l => l
  | _ + 1, [] => []
  | fuel + 1, l@(c :: rest) =>
    match trySuffix l with
    | some (rep, r) => rep ++ suffixScan fuel r
    | none => c :: suffixScan fuel rest

/-- `re.sub(r'\b0[xX][0-9A-Fa-f]+\b', repl_hex, s)`; `prevWord` records
whether the character just before the current position is a word
character (for the leading `\b`). -/
def hexScan : Nat → Bool → List Char → List Char
  | 0, _, l => l
  | _ + 1, _, [] => []
  | fuel + 1, prevWord, c :: cs =>
    if !prevWord && c == '0' then
      match cs with
      | x :: r1 =>
        if x == 'x' || x == 'X' then
          let h := r1.takeWhile isHexDigit
          let r2 := r1.dropWhile isHexDigit
          let okEnd := match r2 with | [] => true | c2 :: _ => !isWordC c2
          if !h.isEmpty && okEnd then
            natToDigits (hexToNat h) ++ hexScan fuel true r2
          else c :: hexScan fuel true cs
        else c :: hexScan fuel true cs
      | [] => [c]
    else c :: hexScan fuel (isWordC c) cs

/-- `re.sub(r'\b0[bB][01]+\b', repl_bin, s)`. -/
def binScan : Nat → Bool → List Char → List Char
  | 0, _, l => l
  | _ + 1, _, [] => []
  | fuel + 1, prevWord, c :: cs =>
    if !prevWord && c == '0' then
      match cs with
      | x :: r1 =>
        if x == 'b' || x == 'B' then
          let h := r1.takeWhile isBinDigit
          let r2 := r1.dropWhile isBinDigit
          let okEnd := match r2 with | [] => true | c2 :: _ => !isWordC c2
          if !h.isEmpty && okEnd then
            natToDigits (binToNat h) ++ binScan fuel true r2
          else c :: binScan fuel true cs
        else c :: binScan fuel true cs
      | [] => [c]
    else c :: binScan fuel (isWordC c) cs

/-- `re.sub(r'\b0[0-7]+\b', repl_oct, s)` (the single-`0` guard of
`repl_oct` is unreachable since the pattern needs a digit after the 0). -/
def octScan : Nat → Bool → List Char → List Char
  | 0, _, l => l
  | _ + 1, _, [] => []
  | fuel + 1, prevWord, c :: cs =>
    if !prevWord && c == '0' then
      let d := cs.takeWhile isOctDigit
      let r2 := cs.dropWhile isOctDigit
      let okEnd := match r2 with | [] => true | c2 :: _ => !isWordC c2
      if !d.isEmpty && okEnd then
        natToDigits (octToNat ('0' :: d)) ++ octScan fuel true r2
      else c :: octScan fuel true cs
    else c :: octScan fuel (isWordC c) cs

/-- `SimplePreprocessor._normalize_numeric_literals`: hex, then binary,
then octal. -/
def hexScanS (l : List Char) : List Char := hexScan l.length false l

def binScanS (l : List Char) : List Char := binScan l.length false l

def octScanS (l : List Char) : List Char := octScan l.length false l

def normalizeNumericLiterals (l : List Char) : List Char :=
  octScanS (binScanS (hexScanS l))

/-- The safety character class
`^[0-9\s\+\-\*\/\%\(\)\<\>\=\!&\|\^~andortnot ]+$`. -/
def isSafeChar (c : Char) : Bool :=
  isDigitC c || isPyWs c ||
  c == '+' || c == '-' || c == '*' || c == '/' || c == '%' ||
  c == '(' || c == ')' || c == '<' || c == '>' || c == '=' || c == '!' ||
  c == '&' || c == '|' || c == '^' || c == '~' ||
  c == 'a' || c == 'n' || c == 'd' || c == 'o' || c == 'r' || c == 't'

def safeCheck (l : List Char) : Bool :=
  !l.isEmpty && l.all isSafeChar

/-! ## A model of Python `eval` on the safe character set

`_safe_eval` hands the translated expression to Python's `eval` (with
empty builtins).  After the safety check the expression can only contain
integers, `and`/`or`/`not`, comparisons, bitwise/shift/arithmetic
operators and parentheses, which are modelled here with Python's
precedence and semantics.  Floats can still arise (from `/`); a value
carries an `isFloat` flag, and only exact division results are
representable — an inexact `/` is modelled as an evaluation failure.
Any evaluation failure and any non-`int` result are both turned into
`0` by `_safe_eval`, so the distinction is unobservable there.
-/

structure PyVal where
  val : Int
  isFloat : Bool
deriving DecidableEq, Repr

def truthy (v : PyVal) : Bool := v.val != 0

def boolVal (b : Bool) : PyVal := ⟨if b then 1 else 0, false⟩

inductive Tok where
  | num (n : Nat)
  | lpar | rpar | plus | minus | star | slash | percent
  | ltT | gtT | leT | geT | eqT | neT
  | amp | pipe | caret | tilde | shl | shr
  | andT | orT | notT | powT
deriving DecidableEq, Repr

/-- Python tokenizer for the safe subset.  A digit run immediately
followed by a word character is an invalid literal (SyntaxError); a
word that is not `and`/`or`/`not` is an unknown name (NameError); both
are failures. -/
def tokenize : Nat → List Char → Option (List Tok)
  | 0, _ => none
  | _ + 1, [] => some []
  | fuel + 1, c :: cs =>
    if isPyWs c then tokenize fuel cs
    else if isDigitC c then
      let d := c :: cs.takeWhile isDigitC
      let rest := cs.dropWhile isDigitC
      match rest with
      | c2 :: _ =>
        if isWordC c2 then none
        else (tokenize fuel rest).map (Tok.num (digitsToNat d) :: ·)
      | [] => some [Tok.num (digitsToNat d)]
    else if isAlphaU c then
      let w := String.mk (c :: cs.takeWhile isWordC)
      let rest := cs.dropWhile isWordC
      if w == "and" then (tokenize fuel rest).map (Tok.andT :: ·)
      else if w == "or" then (tokenize fuel rest).map (Tok.orT :: ·)
      else if w == "not" then (tokenize fuel rest).map (Tok.notT :: ·)
      else none
    else
      match c, cs with
      | '<', '<' :: r => (tokenize fuel r).map (Tok.shl :: ·)
      | '<', '=' :: r => (tokenize fuel r).map (Tok.leT :: ·)
      | '<', _ => (tokenize fuel cs).map (Tok.ltT :: ·)
      | '>', '>' :: r => (tokenize fuel r).map (Tok.shr :: ·)
      | '>', '=' :: r => (tokenize fuel r).map (Tok.geT :: ·)
      | '>', _ => (tokenize fuel cs).map (Tok.gtT :: ·)
      | '=', '=' :: r => (tokenize fuel r).map (Tok.eqT :: ·)
      | '=', _ => none
      | '!', '=' :: r => (tokenize fuel r).map (Tok.neT :: ·)
      | '!', _ => none
      | '*', '*' :: r => (tokenize fuel r).map (Tok.powT :: ·)
      | '*', _ => (tokenize fuel cs).map (Tok.star :: ·)
      | '(', _ => (tokenize fuel cs).map (Tok.lpar :: ·)
      | ')', _ => (tokenize fuel cs).map (Tok.rpar :: ·)
      | '+', _ => (tokenize fuel cs).map (Tok.plus :: ·)
      | '-', _ => (tokenize fuel cs).map (Tok.minus :: ·)
      | '/', _ => (tokenize fuel cs).map (Tok.slash :: ·)
      | '%', _ => (tokenize fuel cs).map (Tok.percent :: ·)
      | '&', _ => (tokenize fuel cs).map (Tok.amp :: ·)
      | '|', _ => (tokenize fuel cs).map (Tok.pipe :: ·)
      | '^', _ => (tokenize fuel cs).map (Tok.caret :: ·)
      | '~', _ => (tokenize fuel cs).map (Tok.tilde :: ·)
      | _, _ => none

def pyAdd (a b : PyVal) : Option PyVal := some ⟨a.val + b.val, a.isFloat || b.isFloat⟩
def pySub (a b : PyVal) : Option PyVal := some ⟨a.val - b.val, a.isFloat || b.isFloat⟩
def pyMul (a b : PyVal) : Option PyVal := some ⟨a.val * b.val, a.isFloat || b.isFloat⟩

/-- Python `/` is true division yielding a float; only the exact case is
representable here, the inexact case is modelled as a failure. -/
def pyDiv (a b : PyVal) : Option PyVal :=
  if b.val == 0 then none
  else if Int.fmod a.val b.val == 0 then some ⟨Int.fdiv a.val b.val, true⟩
  else none

/-- Python `%` (sign follows the divisor: `Int.fmod`). -/
def pyMod (a b : PyVal) : Option PyVal :=
  if b.val == 0 then none
  else some ⟨Int.fmod a.val b.val, a.isFloat || b.isFloat⟩

/-- Python `**`; a negative exponent yields a float, modelled as failure. -/
def pyPow (a b : PyVal) : Option PyVal :=
  if b.val < 0 then none
  else some ⟨a.val ^ b.val.toNat, a.isFloat || b.isFloat⟩

def pyShl (a b : PyVal) : Option PyVal :=
  if a.isFloat || b.isFloat || b.val < 0 then none
  else some ⟨a.val * (2 : Int) ^ b.val.toNat, false⟩

def pyShr (a b : PyVal) : Option PyVal :=
  if a.isFloat || b.isFloat || b.val < 0 then none
  else some ⟨Int.fdiv a.val ((2 : Int) ^ b.val.toNat), false⟩

def pyAnd' (a b : PyVal) : Option PyVal :=
  if a.isFloat || b.isFloat then none else some ⟨Int.land a.val b.val, false⟩

def pyOr' (a b : PyVal) : Option PyVal :=
  if a.isFloat || b.isFloat then none else some ⟨Int.lor a.val b.val, false⟩

def pyXor' (a b : PyVal) : Option PyVal :=
  if a.isFloat || b.isFloat then none else some ⟨Int.xor a.val b.val, false⟩

def isCmpTok : Tok → Bool
  | Tok.ltT | Tok.gtT | Tok.leT | Tok.geT | Tok.eqT | Tok.neT => true
  | _ => false

def cmpEval (t : Tok) (a b : PyVal) : Bool :=
  match t with
  | Tok.ltT => a.val < b.val
  | Tok.gtT => a.val > b.val
  | Tok.leT => a.val ≤ b.val
  | Tok.geT => a.val ≥ b.val
  | Tok.eqT => a.val == b.val
  | Tok.neT => !(a.val == b.val)
  | _ => false

mutual

def parseOrE : Nat → List Tok → Option (PyVal × List Tok)
  | 0, _ => none
  | fuel + 1, ts => do
    let (v, ts1) ← parseAndE fuel ts
    parseOrRest fuel v ts1

def parseOrRest : Nat → PyVal → List Tok → Option (PyVal × List Tok)
  | 0, _, _ => none
  | fuel + 1, v, Tok.orT :: ts => do
    let (w, ts1) ← parseAndE fuel ts
    parseOrRest fuel (if truthy v then v else w) ts1
  | _ + 1, v, ts => some (v, ts)

def parseAndE : Nat → List Tok → Option (PyVal × List Tok)
  | 0, _ => none
  | fuel + 1, ts => do
    let (v, ts1) ← parseNotE fuel ts
    parseAndRest fuel v ts1

def parseAndRest : Nat → PyVal → List Tok → Option (PyVal × List Tok)
  | 0, _, _ => none
  | fuel + 1, v, Tok.andT :: ts => do
    let (w, ts1) ← parseNotE fuel ts
    parseAndRest fuel (if truthy v then w else v) ts1
  | _ + 1, v, ts => some (v, ts)

def parseNotE : Nat → List Tok → Option (PyVal × List Tok)
  | 0, _ => none
  | fuel + 1, Tok.notT :: ts => do
    let (v, ts1) ← parseNotE fuel ts
    some (boolVal (!truthy v), ts1)
  | fuel + 1, ts => parseCmpE fuel ts

def parseCmpE : Nat → List Tok → Option (PyVal × List Tok)
  | 0, _ => none
  | fuel + 1, ts => do
    let (v, ts1) ← parseBitOrE fuel ts
    match ts1 with
    | t :: ts2 =>
      if isCmpTok t then do
        let (w, ts3) ← parseBitOrE fuel ts2
        parseCmpRest fuel (cmpEval t v w) w ts3
      else some (v, ts1)
    | [] => some (v, ts1)

def parseCmpRest : Nat → Bool → PyVal → List Tok → Option (PyVal × List Tok)
  | 0, _, _, _ => none
  | fuel + 1, acc, last, t :: ts =>
    if isCmpTok t then do
      let (w, ts1) ← parseBitOrE fuel ts
      parseCmpRest fuel (acc && cmpEval t last w) w ts1
    else some (boolVal acc, t :: ts)
  | _ + 1, acc, _, [] => some (boolVal acc, [])

def parseBitOrE : Nat → List Tok → Option (PyVal × List Tok)
  | 0, _ => none
  | fuel + 1, ts => do
    let (v, ts1) ← parseBitXorE fuel ts
    parseBitOrRest fuel v ts1

def parseBitOrRest : Nat → PyVal → List Tok → Option (PyVal × List Tok)
  | 0, _, _ => none
  | fuel + 1, v, Tok.pipe :: ts => do
    let (w, ts1) ← parseBitXorE fuel ts
    let r ← pyOr' v w
    parseBitOrRest fuel r ts1
  | _ + 1, v, ts => some (v, ts)

def parseBitXorE : Nat → List Tok → Option (PyVal × List Tok)
  | 0, _ => none
  | fuel + 1, ts => do
    let (v, ts1) ← parseBitAndE fuel ts
    parseBitXorRest fuel v ts1

def parseBitXorRest : Nat → PyVal → List Tok → Option (PyVal × List Tok)
  | 0, _, _ => none
  | fuel + 1, v, Tok.caret :: ts => do
    let (w, ts1) ← parseBitAndE fuel ts
    let r ← pyXor' v w
    parseBitXorRest fuel r ts1
  | _ + 1, v, ts => some (v, ts)

def parseBitAndE : Nat → List Tok → Option (PyVal × List Tok)
  | 0, _ => none
  | fuel + 1, ts => do
    let (v, ts1) ← parseShiftE fuel ts
    parseBitAndRest fuel v ts1

def parseBitAndRest : Nat → PyVal → List Tok → Option (PyVal × List Tok)
  | 0, _, _ => none
  | fuel + 1, v, Tok.amp :: ts => do
    let (w, ts1) ← parseShiftE fuel ts
    let r ← pyAnd' v w
    parseBitAndRest fuel r ts1
  | _ + 1, v, ts => some (v, ts)

def parseShiftE : Nat → List Tok → Option (PyVal × List Tok)
  | 0, _ => none
  | fuel + 1, ts => do
    let (v, ts1) ← parseArithE fuel ts
    parseShiftRest fuel v ts1

def parseShiftRest : Nat → PyVal → List Tok → Option (PyVal × List Tok)
  | 0, _, _ => none
  | fuel + 1, v, Tok.shl :: ts => do
    let (w, ts1) ← parseArithE fuel ts
    let r ← pyShl v w
    parseShiftRest fuel r ts1
  | fuel + 1, v, Tok.shr :: ts => do
    let (w, ts1) ← parseArithE fuel ts
    let r ← pyShr v w
    parseShiftRest fuel r ts1
  | _ + 1, v, ts => some (v, ts)

def parseArithE : Nat → List Tok → Option (PyVal × List Tok)
  | 0, _ => none
  | fuel + 1, ts => do
    let (v, ts1) ← parseTermE fuel ts
    parseArithRest fuel v ts1

def parseArithRest : Nat → PyVal → List Tok → Option (PyVal × List Tok)
  | 0, _, _ => none
  | fuel + 1, v, Tok.plus :: ts => do
    let (w, ts1) ← parseTermE fuel ts
    let r ← pyAdd v w
    parseArithRest fuel r ts1
  | fuel + 1, v, Tok.minus :: ts => do
    let (w, ts1) ← parseTermE fuel ts
    let r ← pySub v w
    parseArithRest fuel r ts1
  | _ + 1, v, ts => some (v, ts)

def parseTermE : Nat → List Tok → Option (PyVal × List Tok)
  | 0, _ => none
  | fuel + 1, ts => do
    let (v, ts1) ← parseFactorE fuel ts
    parseTermRest fuel v ts1

def parseTermRest : Nat → PyVal → List Tok → Option (PyVal × List Tok)
  | 0, _, _ => none
  | fuel + 1, v, Tok.star :: ts => do
    let (w, ts1) ← parseFactorE fuel ts
    let r ← pyMul v w
    parseTermRest fuel r ts1
  | fuel + 1, v, Tok.slash :: ts => do
    let (w, ts1) ← parseFactorE fuel ts
    let r ← pyDiv v w
    parseTermRest fuel r ts1
  | fuel + 1, v, Tok.percent :: ts => do
    let (w, ts1) ← parseFactorE fuel ts
    let r ← pyMod v w
    parseTermRest fuel r ts1
  | _ + 1, v, ts => some (v, ts)

def parseFactorE : Nat → List Tok → Option (PyVal × List Tok)
  | 0, _ => none
  | fuel + 1, Tok.plus :: ts => parseFactorE fuel ts
  | fuel + 1, Tok.minus :: ts => do
    let (v, ts1) ← parseFactorE fuel ts
    some (⟨-v.val, v.isFloat⟩, ts1)
  | fuel + 1, Tok.tilde :: ts => do
    let (v, ts1) ← parseFactorE fuel ts
    if v.isFloat then none else some (⟨-v.val - 1, false⟩, ts1)
  | fuel + 1, ts => parsePowerE fuel ts

def parsePowerE : Nat → List Tok → Option (PyVal × List Tok)
  | 0, _ => none
  | fuel + 1, ts => do
    let (v, ts1) ← parseAtomE fuel ts
    match ts1 with
    | Tok.powT :: ts2 => do
      let (w, ts3) ← parseFactorE fuel ts2
      let r ← pyPow v w
      some (r, ts3)
    | _ => some (v, ts1)

def parseAtomE : Nat → List Tok → Option (PyVal × List Tok)
  | 0, _ => none
  | _ + 1, Tok.num n :: ts => some (⟨(n : Int), false⟩, ts)
  | fuel + 1, Tok.lpar :: ts => do
    let (v, ts1) ← parseOrE fuel ts
    match ts1 with
    | Tok.rpar :: ts2 => some (v, ts2)
    | _ => none
  | _ + 1, _ => none

end

def tokenizeS (l : List Char) : Option (List Tok) :=
  tokenize (l.length + 1) l

def pythonEval (l : List Char) : Option PyVal := do
  let ts ← tokenizeS l
  let (v, rest) ← parseOrE (16 * (ts.length + 1)) ts
  if rest.isEmpty then some v else none

/-- `SimplePreprocessor._safe_eval`.  Returns `none` exactly when the
safety check raises (`ValueError: Unsafe expression`); every other
failure is caught inside and becomes `0`, and a non-`int` result also
becomes `0`. -/
def pyReplaceS (pat rep l : List Char) : List Char :=
  pyReplace pat rep l.length l

def backslashWsSubS (l : List Char) : List Char := backslashWsSub l.length l

def parenMulScanS (l : List Char) : List Char := parenMulScan l.length l

def suffixScanS (l : List Char) : List Char := suffixScan l.length l

def safeEval (s : String) : Option Int :=
  let e2 := pyStrip (rstripBackslash (backslashWsSubS (pyStrip s.data)))
  let e5 := normalizeNumericLiterals (suffixScanS (parenMulScanS e2))
  let e9 := pyReplaceS "&&".data " and ".data
    (pyReplaceS "<=".data "__LE__".data
      (pyReplaceS ">=".data "__GE__".data
        (pyReplaceS "!=".data "__NE__".data e5)))
  let e14 := pyReplaceS "__LE__".data "<=".data
    (pyReplaceS "__GE__".data ">=".data
      (pyReplaceS "__NE__".data "!=".data
        (pyReplaceS "!".data " not ".data
          (pyReplaceS "||".data " or ".data e9))))
  let ef := pyStrip e14
  if safeCheck ef then
    some
      (match pythonEval ef with
       | some v => if v.isFloat then 0 else v.val
       | none => 0)
  else none

/-- `SimplePreprocessor._evaluate_expression_sz`: recursive macro
expansion, comment stripping, then `_safe_eval`. -/
def evaluateExpressionSz (look : String → Option String) (s : String) : Option Int :=
  safeEval (stripCommentsSz (recursiveExpandMacros look s))

/-- The condition processing of `_handle_if_structured` /
`_handle_elif_structured`: comments are stripped once more before
`_evaluate_expression_sz`; `none` models the caught evaluation
exception. -/
def processCondition (look : String → Option String) (cond : String) : Option Int :=
  evaluateExpressionSz look (stripCommentsSz cond)

/-! ## File analyses and directives

The structured directive data consumed by
`SimplePreprocessor.process_structured` (the `PreprocessorDirective` /
`FileAnalysisResult` fields it reads: `directive_type`, `condition`,
`macro_name`, `macro_value`, `continuation_lines`, `line_count`,
`directive_by_line`, `includes`, `magic_flags`, `defines`).  The
`content_hash` key is modelled by keying caches on the analysis value
itself (content addressing is injective).  `includes`, `magic_flags`
and `defines` entries are read only through their `line_num` field, so
the rest of each record is kept as an opaque payload.
-/

structure Directive where
  directiveType : String
  condition : Option String := none
  macroName : Option String := none
  macroValue : Option String := none
  continuationLines : Nat := 0
deriving DecidableEq, Repr

structure LineItem where
  lineNum : Nat
  payload : String := ""
deriving DecidableEq, Repr

structure FileAnalysis where
  lineCount : Nat
  directiveByLine : List (Nat × Directive)
  includes : List LineItem := []
  magicFlags : List LineItem := []
  defines : List LineItem := []
deriving DecidableEq, Repr

/-- Python truthiness of an optional string (`if directive.condition:`
is false both for `None` and for the empty string). -/
def optNonempty : Option String → Option String
  | some s => if s.data.isEmpty then none else some s
  | none => none

/-! ## The conditional-compilation state machine -/

/-- One entry of `condition_stack`: `(is_active, seen_else,
any_condition_met)`.  The list head is the stack top. -/
structure Frame where
  active : Bool
  seenElse : Bool
  anyMet : Bool
deriving DecidableEq, Repr

/-- `condition_stack[-1][0]`; the stack always carries its bottom frame,
so the empty case is unreachable. -/
def topActive (stack : List Frame) : Bool :=
  match stack with
  | f :: _ => f.active
  | [] => true

/-- `_handle_define_structured`. -/
def handleDefine (d : Directive) (stack : List Frame) (macros : Env) : Env :=
  if !(topActive stack) then macros
  else
    match optNonempty d.macroName with
    | some n => envInsert macros n (d.macroValue.getD "1")
    | none => macros

/-- `_handle_undef_structured`. -/
def handleUndef (d : Directive) (stack : List Frame) (macros : Env) : Env :=
  if !(topActive stack) then macros
  else
    match optNonempty d.macroName with
    | some n => if envContains macros n then envErase macros n else macros
    | none => macros

/-- `_handle_ifdef_structured` (no push when the macro name is absent). -/
def handleIfdef (d : Directive) (stack : List Frame) (macros : Env) : List Frame :=
  match optNonempty d.macroName with
  | some n =>
    let isActive := envContains macros n && topActive stack
    ⟨isActive, false, isActive⟩ :: stack
  | none => stack

/-- `_handle_ifndef_structured`. -/
def handleIfndef (d : Directive) (stack : List Frame) (macros : Env) : List Frame :=
  match optNonempty d.macroName with
  | some n =>
    let isActive := !(envContains macros n) && topActive stack
    ⟨isActive, false, isActive⟩ :: stack
  | none => stack

/-- `_handle_if_structured`; a failed evaluation (`none`) pushes the
all-false frame. -/
def handleIf (d : Directive) (stack : List Frame) (macros : Env) : List Frame :=
  match optNonempty d.condition with
  | some c =>
    match processCondition (envLookup macros) c with
    | some v =>
      let isActive := (v != 0) && topActive stack
      ⟨isActive, false, isActive⟩ :: stack
    | none => ⟨false, false, false⟩ :: stack
  | none => ⟨false, false, false⟩ :: stack

/-- `_handle_elif_structured`.  With only the bottom frame the directive
is ignored; otherwise the top frame is popped and replaced. -/
def handleElif (d : Directive) (stack : List Frame) (macros : Env) : List Frame :=
  match stack with
  | f :: p :: rest =>
    if !f.seenElse && !f.anyMet && (optNonempty d.condition).isSome then
      let parentActive := p.active
      match processCondition (envLookup macros) ((optNonempty d.condition).getD "") with
      | some v =>
        let newActive := (v != 0) && parentActive
        ⟨newActive, false, f.anyMet || newActive⟩ :: p :: rest
      | none => ⟨false, false, f.anyMet⟩ :: p :: rest
    else ⟨false, f.seenElse, f.anyMet⟩ :: p :: rest
  | s => s

/-- `_handle_else`. -/
def handleElse (stack : List Frame) : List Frame :=
  match stack with
  | f :: p :: rest =>
    if !f.seenElse then
      let parentActive := p.active
      let newActive := !f.anyMet && parentActive
      ⟨newActive, true, f.anyMet || newActive⟩ :: p :: rest
    else ⟨false, true, f.anyMet⟩ :: p :: rest
  | s => s

/-- `_handle_endif` (never pops the bottom frame). -/
def handleEndif (stack : List Frame) : List Frame :=
  match stack with
  | _ :: g :: rest => g :: rest
  | s => s

/-- `_handle_directive_structured`: returns the new stack, the new macro
state and whether the directive was handled. -/
def handleDirectiveStructured (d : Directive) (stack : List Frame) (macros : Env) :
    List Frame × Env × Bool :=
  if d.directiveType == "define" then (stack, handleDefine d stack macros, true)
  else if d.directiveType == "undef" then (stack, handleUndef d stack macros, true)
  else if d.directiveType == "ifdef" then (handleIfdef d stack macros, macros, true)
  else if d.directiveType == "ifndef" then (handleIfndef d stack macros, macros, true)
  else if d.directiveType == "if" then (handleIf d stack macros, macros, true)
  else if d.directiveType == "elif" then (handleElif d stack macros, macros, true)
  else if d.directiveType == "else" then (handleElse stack, macros, true)
  else if d.directiveType == "endif" then (handleEndif stack, macros, true)
  else (stack, macros, false)

def insertSorted (n : Nat) : List Nat → List Nat
  | [] => [n]
  | m :: rest => if n ≤ m then n :: m :: rest else m :: insertSorted n rest

/-- Python `sorted` on line numbers. -/
def sortNat : List Nat → List Nat
  | [] => []
  | n :: rest => insertSorted n (sortNat rest)

/-- The lines recorded for an active `define`/`undef`/unhandled
directive: the directive line plus its in-range continuation lines. -/
def contActiveLines (i cont lineCount : Nat) : List Nat :=
  i :: (List.range cont).filterMap
    (fun j => if i + j + 1 < lineCount then some (i + j + 1) else none)

/-- The main loop of `process_structured` (its fresh, cache-miss
computation).  `pending` is the iterator over the sorted directive
lines: it advances only when the loop index hits its head exactly
(directive lines skipped over by a multi-line directive stall it, as in
the source).  `fuel` ≥ `lineCount` suffices since `i` strictly
increases. -/
def processLoop (fa : FileAnalysis) :
    Nat → Nat → List Frame → List Nat → Env → List Nat → List Nat × Env
  | 0, _, _, acc, macros, _ => (acc, macros)
  | fuel + 1, i, stack, acc, macros, pending =>
    if i < fa.lineCount then
      match pending with
      | ln :: rest =>
        if i == ln then
          match fa.directiveByLine.find? (fun p => p.1 == i) with
          | some (_, d) =>
            let cont := d.continuationLines
            let (stack', macros', handled) := handleDirectiveStructured d stack macros
            let acc' :=
              if topActive stack' then
                if d.directiveType == "define" || d.directiveType == "undef" ||
                    handled == false then
                  acc ++ contActiveLines i cont fa.lineCount
                else acc
              else acc
            processLoop fa fuel (i + cont + 1) stack' acc' macros' rest
          | none =>
            processLoop fa fuel (i + 1) stack
              (if topActive stack then acc ++ [i] else acc) macros rest
        else
          processLoop fa fuel (i + 1) stack
            (if topActive stack then acc ++ [i] else acc) macros pending
      | [] =>
        processLoop fa fuel (i + 1) stack
          (if topActive stack then acc ++ [i] else acc) macros []
    else (acc, macros)

/-- `SimplePreprocessor.process_structured` (fresh computation) plus the
final macro state of the preprocessor (`__init__` copies the caller's
dict, so the input environment is never mutated). -/
def processStructured (fa : FileAnalysis) (inputMacros : Env) : List Nat × Env :=
  processLoop fa fa.lineCount 0 [⟨true, false, false⟩] [] inputMacros
    (sortNat (fa.directiveByLine.map Prod.fst))

/-! ## `ProcessingResult` and the pure evaluation of a file -/

structure ProcessingResult where
  activeLines : List Nat
  activeIncludes : List LineItem
  activeMagicFlags : List LineItem
  activeDefines : List LineItem
  updatedMacros : Env
deriving DecidableEq, Repr

/-- The compute path of `get_or_compute_preprocessing`: run the
preprocessor and filter the per-line records by membership in the
active-line set. -/
def evaluate (fa : FileAnalysis) (inputMacros : Env) : ProcessingResult :=
  let r := processStructured fa inputMacros
  { activeLines := r.1
    activeIncludes := fa.includes.filter (fun it => r.1.contains it.lineNum)
    activeMagicFlags := fa.magicFlags.filter (fun it => r.1.contains it.lineNum)
    activeDefines := fa.defines.filter (fun it => r.1.contains it.lineNum)
    updatedMacros := r.2 }

/-! ## `preprocessing_cache.py` -/

/-- Identifiers `[A-Za-z_][A-Za-z0-9_]*` occurring in a condition
expression, reserved keywords excluded. -/
def condIdentifiers (s : String) : List String :=
  go s.data.length s.data
where
  go : Nat → List Char → List String
    | 0, _ => []
    | _ + 1, [] => []
    | fuel + 1, c :: cs =>
      if isAlphaU c then
        let ident := String.mk (c :: cs.takeWhile isWordC)
        let rest := cs.dropWhile isWordC
        if ident == "and" || ident == "or" || ident == "not" ||
            ident == "true" || ident == "false" || ident == "defined" then
          go fuel rest
        else ident :: go fuel rest
      else go fuel cs

/-- Modelled from the spec: the `conditional_macros` field of
`FileAnalysisResult` — "the set of macro identifiers referenced by any
`#ifdef`, `#ifndef`, `#if`, or `#elif` in this file (identifiers parsed
out of `#if`/`#elif` condition expressions, excluding the keywords
`and`, `or`, `not`, `true`, `false`, `defined`)".  The field is read by
`preprocessing_cache.is_macro_invariant` but its producer is not among
the source files of `src/` (the `FileAnalysisResult` there predates the
field). -/
def conditionalMacros (fa : FileAnalysis) : List String :=
  (fa.directiveByLine.foldr
    (fun (p : Nat × Directive) acc =>
      let d := p.2
      if d.directiveType == "ifdef" || d.directiveType == "ifndef" then
        (match d.macroName with | some n => [n] | none => []) ++ acc
      else if d.directiveType == "if" || d.directiveType == "elif" then
        (match d.condition with | some c => condIdentifiers c | none => []) ++ acc
      else acc)
    []).dedup

/-- `preprocessing_cache.is_macro_invariant`. -/
def isMacroInvariant (fa : FileAnalysis) (inputMacros : Env) : Bool :=
  let cm := conditionalMacros fa
  if cm.isEmpty then true
  else !(cm.any (fun m => envContains inputMacros m))

/-- The two module-level caches of `preprocessing_cache.py`.  The
invariant cache is keyed by content hash (here: by the analysis itself);
the variant cache key pairs the content hash with the
`frozenset((str(k), str(v)) ...)` of the input environment, modelled by
storing the pair list and matching it up to content equality. -/
structure CacheState where
  invCache : List (FileAnalysis × ProcessingResult)
  varCache : List ((FileAnalysis × Env) × ProcessingResult)

def emptyCache : CacheState := ⟨[], []⟩

def findInv (st : CacheState) (fa : FileAnalysis) : Option ProcessingResult :=
  (st.invCache.find? (fun e => e.1 == fa)).map (fun e => e.2)

def findVar (st : CacheState) (fa : FileAnalysis) (env : Env) : Option ProcessingResult :=
  (st.varCache.find? (fun e => e.1.1 == fa && envSetEq e.1.2 env)).map (fun e => e.2)

/-- `get_or_compute_preprocessing` (statistics and verbose logging,
which do not affect the result, are omitted). -/
def getOrCompute (st : CacheState) (fa : FileAnalysis) (inputMacros : Env) :
    ProcessingResult × CacheState :=
  if isMacroInvariant fa inputMacros then
    match findInv st fa with
    | some r => (r, st)
    | none =>
      let r := evaluate fa inputMacros
      (r, { st with invCache := (fa, r) :: st.invCache })
  else
    match findVar st fa inputMacros with
    | some r => (r, st)
    | none =>
      let r := evaluate fa inputMacros
      (r, { st with varCache := ((fa, inputMacros), r) :: st.varCache })

/-- The cache state reached by a sequence of `get_or_compute` calls. -/
def runCalls : CacheState → List (FileAnalysis × Env) → CacheState
  | st, [] => st
  | st, (fa, env) :: rest => runCalls (getOrCompute st fa env).2 rest

/-- Result equality modulo dict order: Python dict equality on
`updated_macros`, plain equality elsewhere. -/
def ResultEquiv (r₁ r₂ : ProcessingResult) : Prop :=
  r₁.activeLines = r₂.activeLines ∧
  r₁.activeIncludes = r₂.activeIncludes ∧
  r₁.activeMagicFlags = r₂.activeMagicFlags ∧
  r₁.activeDefines = r₂.activeDefines ∧
  envEquiv r₁.updatedMacros r₂.updatedMacros

/-- The invariant of cache states reachable through
`get_or_compute_preprocessing` calls: every invariant-cache entry is
the evaluation of its file under the (well-formed, invariance-passing)
environment of the call that populated it, and every variant-cache
entry is the evaluation of its file under its stored key
environment. -/
def CacheOK (st : CacheState) : Prop :=
  (∀ e ∈ st.invCache, ∃ env₀, NodupKeys env₀ ∧ isMacroInvariant e.1 env₀ = true ∧
     e.2 = evaluate e.1 env₀) ∧
  (∀ e ∈ st.varCache, NodupKeys e.1.2 ∧ isMacroInvariant e.1.1 e.1.2 = false ∧
     e.2 = evaluate e.1.1 e.1.2)

/-! ## `headerdeps.py`: `DirectHeaderDeps`

The per-file step (`_create_include_list` plus `_find_include`) is
abstracted as a function `analyzeFile : path → macro env → (resolved
active include paths in source order, macro env after the file)`: the
traversal logic under verification only observes that interface.
Unresolved includes are dropped by the source (`if trialpath:`) and are
therefore already absent from the list.  The Python `results` set is
modelled by a duplicate-free list recording insertion order; the value
returned by `_process_impl` is that set, i.e. the list up to order — a
`Multiset`.
-/

/-- Python `set.add` on the insertion-ordered model. -/
def setAdd (l : List String) (p : String) : List String :=
  if l.contains p then l else l ++ [p]

/-- `DirectHeaderDeps._process_impl_recursive`.  `fuel` bounds the
recursion depth (the Python recursion is bounded by the finitely many
files on disk). -/
def dhVisit (analyzeFile : String → Env → List String × Env) :
    Nat → String → List String → Env → List String × Env
  | 0, _, results, env => (results, env)
  | fuel + 1, p, results, env =>
    let results := setAdd results p
    let r := analyzeFile p env
    r.1.foldl
      (fun (acc : List String × Env) inc =>
        if acc.1.contains inc then acc
        else dhVisit analyzeFile fuel inc acc.1 acc.2)
      (results, r.2)

/-- `DirectHeaderDeps._process_impl`: reset the macro state to the seed
(`_initialize_includes_and_macros`), run the recursion from an empty
result set, discard the translation unit itself.  The incoming object
state `σ` (the macro dict left over from a previous call) is discarded
by the reset.  The first component is the returned Python set; the
second is the object's macro state after the call. -/
def dhProcessImpl (analyzeFile : String → Env → List String × Env)
    (seed : Env) (fuel : Nat) (_σ : Env) (p : String) : Multiset String × Env :=
  let r := dhVisit analyzeFile fuel p [] seed
  (((r.1.filter (fun q => q != p)) : List String), r.2)

/-- The spec's `header_dependencies(tu_path)`: the ordered list of
header realpaths first seen by the depth-first source-order include
walk, excluding the translation unit itself. -/
def specHeaderDependencies (analyzeFile : String → Env → List String × Env)
    (seed : Env) (fuel : Nat) (p : String) : List String :=
  ((dhVisit analyzeFile fuel p [] seed).1).filter (fun q => q != p)

/-- Processing several translation units in sequence on one
`DirectHeaderDeps` object, threading the object's macro state. -/
def dhRunTUs (analyzeFile : String → Env → List String × Env)
    (seed : Env) (fuel : Nat) : Env → List String → List (String × Multiset String)
  | _, [] => []
  | σ, tu :: rest =>
    let r := dhProcessImpl analyzeFile seed fuel σ tu
    (tu, r.1) :: dhRunTUs analyzeFile seed fuel r.2 rest

/-- `HeaderDepsBase.process`: the first `_process_impl` attempt has its
`IOError` swallowed, and a falsy (empty) first result triggers a second
attempt whose outcome is returned as-is.  `impl n` is the n-th
invocation of `_process_impl`. -/
def hdProcess (impl : Nat → Except Unit (List String)) : Except Unit (List String) :=
  match impl 0 with
  | Except.error _ => impl 1
  | Except.ok r => if r.isEmpty then impl 1 else Except.ok r

/-! ## `magicflags.py`: the `DirectMagicFlags.readfile` fixed-point loop

One pass over all files (the body of the `while`: re-reading every file
and running conditional compilation, which updates `defined_macros` and
`macro_values`) is abstracted as `step`.  The loop compares the
`defined_macros` set before and after, runs at most `max_iterations =
5` passes, and returns the text of the last pass.  The `warnings` field
records warnings emitted by the loop: the source emits none.
-/

structure MagicState where
  definedMacros : List String
  macroValues : Env
deriving DecidableEq, Repr

/-- Python set equality on `defined_macros`. -/
def strSetEq (a b : List String) : Bool :=
  a.all (fun s => b.contains s) && b.all (fun s => a.contains s)

structure ReadfileResult where
  text : String
  state : MagicState
  iterations : Nat
  warnings : List String
deriving DecidableEq, Repr

/-- The loop; `fuel` is the remaining iteration budget
(`max_iterations - iteration`). -/
def readfileLoop (step : MagicState → MagicState × String) :
    Nat → List String → MagicState → Nat → String → ReadfileResult
  | 0, _, st, iter, text => ⟨text, st, iter, []⟩
  | fuel + 1, prev, st, iter, text =>
    if !(strSetEq prev st.definedMacros) then
      let prev' := st.definedMacros
      let r := step st
      readfileLoop step fuel prev' r.1 (iter + 1) r.2
  else ⟨text, st, iter, []⟩

/-- `DirectMagicFlags.readfile` after the seed macros are installed:
`previous_macros = set()`, `iteration = 0`, up to 5 passes.  (When the
loop body never runs the source would hit an unbound local `text`; the
seed macro set is nonempty in every real run, the initial `""` here is
a placeholder.) -/
def readfile (step : MagicState → MagicState × String) (seed : MagicState) :
    ReadfileResult :=
  readfileLoop step 5 [] seed 0 ""

/-! ## `utils.deduplicate_compiler_flags` -/

def flagWithArgs : List String :=
  ["-I", "-isystem", "-L", "-l", "-D", "-U", "-F", "-framework"]

/-- The `for flag_prefix in flag_with_args` match.  The source iterates
a Python set in unspecified order, but at most one element can match a
given token (the characters after `-` distinguish all eight), so a
fixed order is faithful. -/
def matchedFlagPfx (flag : String) : Option String :=
  flagWithArgs.find?
    (fun pfx => flag == pfx ||
      (pfx.data.isPrefixOf flag.data && flag.data.length > pfx.data.length))

/-- `seen_flag_args[pfx]` (an absent key is the empty set). -/
def seenArgs : List (String × List String) → String → List String
  | [], _ => []
  | e :: rest, pfx => if e.1 == pfx then e.2 else seenArgs rest pfx

def seenAdd (seen : List (String × List String)) (pfx arg : String) :
    List (String × List String) :=
  if seen.any (fun e => e.1 == pfx) then
    seen.map (fun e => if e.1 == pfx then (e.1, e.2 ++ [arg]) else e)
  else seen ++ [(pfx, arg :: [])]

/-- The scan of `deduplicate_compiler_flags`: `acc` is `deduplicated`,
`seen` is `seen_flag_args`.  A bare exact flag in last position takes
the combined branch with an empty argument (`flag.startswith(flag)`). -/
def dedupGo : Nat → List String → List String → List (String × List String) → List String
  | 0, _, acc, _ => acc
  | _ + 1, [], acc, _ => acc
  | fuel + 1, flag :: rest, acc, seen =>
    match matchedFlagPfx flag with
    | some pfx =>
      if flag == pfx && !rest.isEmpty then
        let arg := rest.headD ""
        if (seenArgs seen pfx).contains arg then dedupGo fuel rest.tail acc seen
        else dedupGo fuel rest.tail (acc ++ [flag, arg]) (seenAdd seen pfx arg)
      else if pfx.data.isPrefixOf flag.data then
        let arg := String.mk (flag.data.drop pfx.data.length)
        if (seenArgs seen pfx).contains arg then dedupGo fuel rest acc seen
        else dedupGo fuel rest (acc ++ [flag]) (seenAdd seen pfx arg)
      else dedupGo fuel rest acc seen
    | none =>
      if acc.contains flag then dedupGo fuel rest acc seen
      else dedupGo fuel rest (acc ++ [flag]) seen

def deduplicateCompilerFlags (flags : List String) : List String :=
  dedupGo flags.length flags [] []

/-- A flag-argument unit (`-I path` separate, `-Ipath` combined) or a
plain token, as classified by the scan (the classification does not
depend on the dedup state). -/
inductive FlagUnit where
  | pair (pfx arg : String) (render : List String)
  | plain (s : String)
deriving DecidableEq, Repr

/-- The surface tokens of a unit as first seen (`[flag, arg]` for the
separate form, `[flag]` for the combined form). -/
def renderUnit : FlagUnit → List String
  | FlagUnit.pair _ _ r => r
  | FlagUnit.plain s => [s]

/-- The token scan factored out of `deduplicate_compiler_flags`. -/
def scanUnits : Nat → List String → List FlagUnit
  | 0, _ => []
  | _ + 1, [] => []
  | fuel + 1, flag :: rest =>
    match matchedFlagPfx flag with
    | some pfx =>
      if flag == pfx && !rest.isEmpty then
        FlagUnit.pair pfx (rest.headD "") [flag, rest.headD ""] :: scanUnits fuel rest.tail
      else if pfx.data.isPrefixOf flag.data then
        FlagUnit.pair pfx (String.mk (flag.data.drop pfx.data.length)) [flag] ::
          scanUnits fuel rest
      else scanUnits fuel rest
    | none => FlagUnit.plain flag :: scanUnits fuel rest

/-- First-seen deduplication on units: a pair unit is kept iff its
`(prefix, argument)` key is new, a plain token iff it does not already
occur in the rendered output. -/
def dedupUnits : Nat → List FlagUnit → List String → List (String × List String) →
    List FlagUnit
  | 0, _, _, _ => []
  | _ + 1, [], _, _ => []
  | fuel + 1, u :: rest, rendered, seen =>
    match u with
    | FlagUnit.pair pfx arg _ =>
      if (seenArgs seen pfx).contains arg then dedupUnits fuel rest rendered seen
      else u :: dedupUnits fuel rest (rendered ++ renderUnit u) (seenAdd seen pfx arg)
    | FlagUnit.plain s =>
      if rendered.contains s then dedupUnits fuel rest rendered seen
      else u :: dedupUnits fuel rest (rendered ++ [s]) seen

/-- The `(prefix, argument)` keys of the pair units, in order. -/
def pairKeys (us : List FlagUnit) : List (String × String) :=
  us.filterMap
    (fun u => match u with
      | FlagUnit.pair p a _ => some (p, a)
      | FlagUnit.plain _ => none)

/-! ## `file_analyzer.py`: `LegacyFileAnalyzer`

Only the fields the directive pipeline produces are modelled
(`lines`, `line_byte_offsets`, `directive_positions`, `directives`,
`directive_by_line`, `bytes_analyzed`, `was_truncated`); the include,
magic-flag and define record extraction of `_cached_analyze` is an
independent tail of the function not needed by the theorems below.
The whole-file read path of `read_file_mmap` is modelled (content read
in full, no truncation).
-/

structure ADirective where
  lineNum : Nat
  bytePos : Nat
  directiveType : String
  fullText : List String
  condition : Option String := none
  macroName : Option String := none
  macroValue : Option String := none
deriving DecidableEq, Repr

inductive AnalyzeError where
  | FileMissing
deriving DecidableEq, Repr

structure AnalyzerResult where
  lines : List String
  lineByteOffsets : List Nat
  directivePositions : List (String × List Nat)
  directives : List ADirective
  directiveByLine : List (Nat × ADirective)
  bytesAnalyzed : Nat
  wasTruncated : Bool
deriving DecidableEq, Repr

/-- The empty `FileAnalysisResult` returned when the file cannot be
read. -/
def emptyAnalyzerResult : AnalyzerResult :=
  ⟨[], [], [], [], [], 0, false⟩

/-- Right strip of ASCII whitespace (Python `str.rstrip()`). -/
def rstripWs (l : List Char) : List Char :=
  (l.reverse.dropWhile isPyWs).reverse

/-- `line.rstrip().endswith('\\')`. -/
def endsWithBackslash (s : String) : Bool :=
  match (rstripWs s.data).getLast? with
  | some c => c == '\\'
  | none => false

/-- `re.search(r'#\s*KEYWORD\s+(\w+)', joined)`: first match anywhere,
returning the captured word. -/
def searchHashKwWord (kw : String) : Nat → List Char → Option String
  | 0, _ => none
  | _ + 1, [] => none
  | fuel + 1, c :: rest =>
    (if c == '#' then
      let r1 := rest.dropWhile isPyWs
      if (kw.data).isPrefixOf r1 then
        let r2 := r1.drop kw.length
        match r2 with
        | c2 :: _ =>
          if isPyWs c2 then
            let r3 := r2.dropWhile isPyWs
            let w := r3.takeWhile isWordC
            if w.isEmpty then none else some (String.mk w)
          else none
        | [] => none
      else none
    else none).orElse (fun _ => searchHashKwWord kw fuel rest)

/-- `re.search(r'#\s*KEYWORD\s+(.*)', joined)` followed by `.strip()`. -/
def searchHashKwRest (kw : String) : Nat → List Char → Option String
  | 0, _ => none
  | _ + 1, [] => none
  | fuel + 1, c :: rest =>
    (if c == '#' then
      let r1 := rest.dropWhile isPyWs
      if (kw.data).isPrefixOf r1 then
        let r2 := r1.drop kw.length
        match r2 with
        | c2 :: _ => if isPyWs c2 then some (String.mk (pyStrip (r2.dropWhile isPyWs))) else none
        | [] => none
      else none
    else none).orElse (fun _ => searchHashKwRest kw fuel rest)

/-- `re.match(r'^\s*#\s*define\s+(\w+)(?:\s+(.*))?$', joined)`: name and
optional value (the value must be introduced by whitespace; anything
else, e.g. a function-like parameter list, fails the whole match). -/
def matchDefine (l : List Char) : Option (String × Option String) :=
  let r0 := l.dropWhile isPyWs
  match r0 with
  | '#' :: r1 =>
    let r2 := r1.dropWhile isPyWs
    if ("define".data).isPrefixOf r2 then
      let r3 := r2.drop 6
      match r3 with
      | c :: _ =>
        if isPyWs c then
          let r4 := r3.dropWhile isPyWs
          let name := r4.takeWhile isWordC
          let r5 := r4.dropWhile isWordC
          if name.isEmpty then none
          else
            match r5 with
            | [] => some (String.mk name, none)
            | c2 :: _ =>
              if isPyWs c2 then
                some (String.mk name, some (String.mk (r5.dropWhile isPyWs)))
              else none
        else none
      | [] => none
    else none
  | _ => none

/-- `' '.join(...)` over character lists. -/
def joinSpace : List (List Char) → List Char
  | [] => []
  | [l] => l
  | l :: rest => l ++ ' ' :: joinSpace rest

/-- `LegacyFileAnalyzer._parse_directive_struct`: total; fields that
cannot be parsed stay absent. -/
def parseDirectiveStruct (dtype : String) (pos lineNum : Nat)
    (directiveLines : List String) : ADirective :=
  let joined :=
    String.mk
      (joinSpace (directiveLines.map (fun line => pyStrip (rstripBackslash line.data))))
  let base : ADirective :=
    { lineNum := lineNum, bytePos := pos, directiveType := dtype,
      fullText := directiveLines }
  if dtype == "ifdef" || dtype == "ifndef" then
    { base with macroName := searchHashKwWord dtype joined.data.length joined.data }
  else if dtype == "if" || dtype == "elif" then
    { base with condition := searchHashKwRest dtype joined.data.length joined.data }
  else if dtype == "define" then
    match matchDefine joined.data with
    | some (name, value) =>
      { base with macroName := some name,
                  macroValue :=
                    match value with
                    | some v =>
                      let v' := String.mk (pyStrip v.data)
                      if v.isEmpty then none else some v'
                    | none => none }
    | none => base
  else if dtype == "undef" then
    { base with macroName := searchHashKwWord "undef" joined.data.length joined.data }
  else base

/-- Python `text.split('\n')` over the character list. -/
def splitLines (l : List Char) : List String :=
  go l.length l []
where
  go : Nat → List Char → List Char → List String
    | 0, l, acc => [String.mk (acc ++ l)]
    | _ + 1, [], acc => [String.mk acc]
    | fuel + 1, c :: rest, acc =>
      if c == '\n' then String.mk acc :: go fuel rest []
      else go fuel rest (acc ++ [c])

/-- UTF-8 byte count (the Lean model of `String.utf8ByteSize`, kept
explicit so it evaluates by `decide`). -/
def utf8Len (l : List Char) : Nat :=
  l.foldl (fun n c => n + c.utf8Size) 0

/-- `bisect.bisect_right(line_byte_offsets, pos) - 1` for a sorted
offset table. -/
def lineOfPos (offsets : List Nat) (pos : Nat) : Nat :=
  (offsets.filter (fun o => o ≤ pos)).length - 1

/-- One line's match of `^(\s*)#\s*([a-zA-Z_]+)` (MULTILINE): the
directive keyword and the byte position of the `#`. -/
def lineDirective (off : Nat) (line : String) : Option (String × Nat) :=
  let l := line.data
  let ws := l.takeWhile isPyWs
  match l.dropWhile isPyWs with
  | '#' :: r1 =>
    let kw := (r1.dropWhile isPyWs).takeWhile (fun c => isAlphaU c)
    if kw.isEmpty then none else some (String.mk kw, off + ws.length)
  | _ => none

/-- `LegacyFileAnalyzer._find_directive_positions`: grouped by directive
keyword in first-encountered order (Python dict insertion order),
positions in text order. -/
def findDirectivePositions (offsets : List Nat) (lines : List String) :
    List (String × List Nat) :=
  (lines.zip offsets).foldl
    (fun acc (p : String × Nat) =>
      match lineDirective p.2 p.1 with
      | some (kw, pos) =>
        if acc.any (fun e => e.1 == kw) then
          acc.map (fun e => if e.1 == kw then (e.1, e.2 ++ [pos]) else e)
        else acc ++ [(kw, [pos])]
      | none => acc)
    []

/-- Collect a directive's lines including backslash continuations
(the `while current_line < len(lines)` gather). -/
def gatherContinuations (lines : List String) : Nat → Nat → List String × List Nat
  | 0, _ => ([], [])
  | fuel + 1, current =>
    match lines.get? current with
    | none => ([], [])
    | some line =>
      if endsWithBackslash line then
        let r := gatherContinuations lines fuel (current + 1)
        (line :: r.1, current :: r.2)
      else ([line], [current])

/-- The directive-structuring loop of `_cached_analyze`. -/
def buildDirectives (offsets : List Nat) (lines : List String)
    (dpos : List (String × List Nat)) :
    List ADirective × List (Nat × ADirective) :=
  let step :=
    fun (acc : List ADirective × List (Nat × ADirective) × List Nat)
        (p : String × Nat) =>
      let (dirs, byLine, processed) := acc
      let dtype := p.1
      let pos := p.2
      let lineNum := lineOfPos offsets pos
      if processed.contains lineNum then acc
      else
        let g := gatherContinuations lines lines.length lineNum
        let d := parseDirectiveStruct dtype pos lineNum g.1
        (dirs ++ [d], byLine ++ [(lineNum, d)], processed ++ g.2)
  let r := (dpos.flatMap (fun e => e.2.map (fun pos => (e.1, pos)))).foldl step ([], [], [])
  (r.1, r.2.1)

/-- `LegacyFileAnalyzer._cached_analyze` on an existing, readable file
(directive pipeline; see the section comment). -/
def cachedAnalyze (content : String) : AnalyzerResult :=
  let lines := splitLines content.data
  let lineByteOffsets :=
    (lines.foldl
      (fun (acc : List Nat × Nat) line =>
        (acc.1 ++ [acc.2], acc.2 + utf8Len line.data + 1))
      ([], 0)).1
  let dpos := findDirectivePositions lineByteOffsets lines
  let built := buildDirectives lineByteOffsets lines dpos
  { lines := lines
    lineByteOffsets := lineByteOffsets
    directivePositions := dpos
    directives := built.1
    directiveByLine := built.2
    bytesAnalyzed := utf8Len content.data
    wasTruncated := false }

/-- `LegacyFileAnalyzer.analyze` over an abstract file system: a
missing path (`getmtime` raising `OSError`, or the `os.path.exists` /
read failures inside `_cached_analyze`) yields the empty result; no
error is ever raised. -/
def analyzeLegacy (fs : String → Option String) (path : String) :
    Except AnalyzeError AnalyzerResult :=
  match fs path with
  | none => Except.ok emptyAnalyzerResult
  | some content => Except.ok (cachedAnalyze content)

/-! ## Concrete instances used by the theorems below -/

/-- A one-line file with no directives at all. -/
def faPlain : FileAnalysis := { lineCount := 1, directiveByLine := [] }

/-- `#define A B` / `#if A` / one ordinary line / `#endif`. -/
def faDefineIf : FileAnalysis :=
  { lineCount := 4
    directiveByLine :=
      [(0, { directiveType := "define", macroName := some "A", macroValue := some "B" }),
       (1, { directiveType := "if", condition := some "A" }),
       (3, { directiveType := "endif" })] }

/-- `#ifdef FOO` / one ordinary line / `#endif`. -/
def faIfdef : FileAnalysis :=
  { lineCount := 3
    directiveByLine :=
      [(0, { directiveType := "ifdef", macroName := some "FOO" }),
       (2, { directiveType := "endif" })] }

/-- An `#elif 1` directive. -/
def elifD1 : Directive := { directiveType := "elif", condition := some "1" }

/-- A per-pass step whose macro set oscillates and never converges. -/
def stepOsc : MagicState → MagicState × String :=
  fun st =>
    if st.definedMacros.contains "A" then (⟨[], []⟩, "tA") else (⟨["A"], []⟩, "t0")

def seedOsc : MagicState := ⟨["A"], []⟩

/-- A translation unit `u` including `a` then `b` (source order). -/
def afOrder1 : String → Env → List String × Env :=
  fun p env => (if p == "u" then ["a", "b"] else [], env)

/-- The same translation unit with the two includes swapped. -/
def afOrder2 : String → Env → List String × Env :=
  fun p env => (if p == "u" then ["b", "a"] else [], env)

/-- A `_process_impl` whose first invocation raises `IOError`. -/
def implFirstRaises : Nat → Except Unit (List String) :=
  fun n => if n == 0 then Except.error () else Except.ok ["h"]

/-- A file system with no files. -/
def fsNone : String → Option String := fun _ => none

/-! # Theorems -/

/-! ## C10: implicit retry in `HeaderDepsBase.process` -/

/-- **C10.** For every filename, if the first `_process_impl` invocation
raises `IOError` the error is swallowed and the second invocation's
result is returned; a falsy (empty) first result likewise triggers a
second invocation whose result is returned; a nonempty first result is
returned directly (one invocation). -/
theorem hdProcess_retry (impl : Nat → Except Unit (List String)) :
    (∀ e, impl 0 = Except.error e → hdProcess impl = impl 1) ∧
    (impl 0 = Except.ok [] → hdProcess impl = impl 1) ∧
    (∀ r, impl 0 = Except.ok r → r ≠ [] → hdProcess impl = Except.ok r) := by
  refine ⟨fun e h => ?_, fun h => ?_, fun r h hne => ?_⟩
  · simp [hdProcess, h]
  · simp [hdProcess, h]
  · simp [hdProcess, h, List.isEmpty_iff, hne]

/-- Witness for C10 at a concrete failing first invocation. -/
theorem hdProcess_retry_witness :
    implFirstRaises 0 = Except.error () ∧
    hdProcess implFirstRaises = implFirstRaises 1 :=
  ⟨rfl, (hdProcess_retry implFirstRaises).1 () rfl⟩

/-! ## C6: the fixed-point iteration bound of `DirectMagicFlags.readfile` -/

theorem readfileLoop_iter_le (step : MagicState → MagicState × String) :
    ∀ fuel prev st iter text,
      (readfileLoop step fuel prev st iter text).iterations ≤ iter + fuel := by
  intro fuel
  induction fuel with
  | zero => intro prev st iter text; simp [readfileLoop]
  | succ n ih =>
    intro prev st iter text
    simp only [readfileLoop]
    split
    · exact le_trans (ih _ _ _ _) (by omega)
    · simp

theorem readfileLoop_warnings_nil (step : MagicState → MagicState × String) :
    ∀ fuel prev st iter text,
      (readfileLoop step fuel prev st iter text).warnings = [] := by
  intro fuel
  induction fuel with
  | zero => intro prev st iter text; simp [readfileLoop]
  | succ n ih =>
    intro prev st iter text
    simp only [readfileLoop]
    split
    · exact ih _ _ _ _
    · rfl

/-- **C6 (amended).** The `readfile` fixed-point loop runs at most 5
iterations; it exits as soon as the macro set is unchanged from the
previous iteration, returning that iteration's text; when the bound is
exhausted it returns the last iteration's result — but no warning is
emitted (the `warnings` output of every run is empty). -/
theorem readfile_fixed_point (step : MagicState → MagicState × String) (seed : MagicState) :
    (readfile step seed).iterations ≤ 5 ∧
    (readfile step seed).warnings = [] ∧
    (∀ fuel prev st iter text, strSetEq prev st.definedMacros = true →
       readfileLoop step (fuel + 1) prev st iter text = ⟨text, st, iter, []⟩) ∧
    (∀ prev st iter text, readfileLoop step 0 prev st iter text = ⟨text, st, iter, []⟩) := by
  refine ⟨readfileLoop_iter_le step 5 [] seed 0 "", readfileLoop_warnings_nil step 5 [] seed 0 "",
    fun fuel prev st iter text h => ?_, fun prev st iter text => rfl⟩
  simp [readfileLoop, h]

/-- Witness for C6 at a concrete converged state. -/
theorem readfile_fixed_point_witness :
    strSetEq ["A"] (⟨["A"], []⟩ : MagicState).definedMacros = true ∧
    readfileLoop stepOsc 3 ["A"] ⟨["A"], []⟩ 2 "t" =
      ⟨"t", ⟨["A"], []⟩, 2, []⟩ :=
  ⟨by decide,
   (readfile_fixed_point stepOsc ⟨["A"], []⟩).2.2.1 2 ["A"] ⟨["A"], []⟩ 2 "t" (by decide)⟩

/-- **C6 counterexample.** A non-converging run exhausts the 5-iteration
bound (one more step would still change the macro set) and returns with
an empty warning list: the claimed warning is never emitted — the loop
body of `DirectMagicFlags.readfile` contains no warning code. -/
theorem readfile_bound_no_warning :
    (readfile stepOsc seedOsc).iterations = 5 ∧
    strSetEq (readfile stepOsc seedOsc).state.definedMacros
      ((stepOsc (readfile stepOsc seedOsc).state).1).definedMacros = false ∧
    (readfile stepOsc seedOsc).warnings = [] := by decide

/-! ## C3: the `#elif` transition -/

/-- **C3 (amended).** When the conditional stack holds at least one
frame above the bottom and the directive carries a nonempty condition,
`_handle_elif_structured` pops the top frame `f` and, if `¬f.seen_else ∧
¬f.any_branch_taken`, pushes `(parent.active ∧ (expr ≠ 0), false,
f.any_branch_taken ∨ new_active)` — a failed evaluation counting as
`expr ≠ 0 = false`; otherwise it pushes `(false, f.seen_else,
f.any_branch_taken)`.  (A stray `#elif` with only the bottom frame on
the stack is ignored, which is what the amendment adds.) -/
theorem handleElif_transition (d : Directive) (env : Env) (f p : Frame)
    (rest : List Frame) (c : String) (hc : optNonempty d.condition = some c) :
    handleElif d (f :: p :: rest) env =
      (if !f.seenElse && !f.anyMet then
        let cond :=
          match processCondition (envLookup env) c with
          | some v => v != 0
          | none => false
        let newActive := cond && p.active
        (⟨newActive, false, f.anyMet || newActive⟩ : Frame) :: p :: rest
      else (⟨false, f.seenElse, f.anyMet⟩ : Frame) :: p :: rest) := by
  unfold handleElif
  dsimp only
  rw [hc]
  dsimp only [Option.isSome_some, Option.getD_some]
  by_cases hs : f.seenElse
  · simp [hs]
  · by_cases ha : f.anyMet
    · simp [hs, ha]
    · simp only [hs, ha, Bool.not_false, Bool.and_self, Bool.and_true, if_true]
      cases hpc : processCondition (envLookup env) c with
      | none => simp [hpc]
      | some v => cases hv : v != 0 <;> simp [hpc, hv]

/-- Witness for C3 at a concrete two-frame stack and condition `1`. -/
theorem handleElif_transition_witness :
    handleElif elifD1 [⟨false, false, false⟩, ⟨true, false, false⟩] [] =
      [⟨true, false, true⟩, ⟨true, false, false⟩] := by
  have h := handleElif_transition elifD1 [] ⟨false, false, false⟩ ⟨true, false, false⟩ [] "1" rfl
  rw [h]; decide

/-- **C3 counterexample.** The claimed transition is stated for every
directive sequence, but on a stack holding only the bottom frame the
code returns the stack unchanged instead of popping and pushing:
`#elif 1` at top level leaves `[(true, false, false)]` while the claimed
pop-and-push would produce `[(true, false, true)]`. -/
theorem handleElif_claim_false :
    ¬ (∀ (d : Directive) (env : Env) (f : Frame) (rest : List Frame) (c : String),
        optNonempty d.condition = some c →
        handleElif d (f :: rest) env =
          (if !f.seenElse && !f.anyMet then
            let cond :=
              match processCondition (envLookup env) c with
              | some v => v != 0
              | none => false
            let parentActive := match rest with | q :: _ => q.active | [] => true
            let newActive := cond && parentActive
            (⟨newActive, false, f.anyMet || newActive⟩ : Frame) :: rest
          else (⟨false, f.seenElse, f.anyMet⟩ : Frame) :: rest)) := by
  intro h
  have h2 := h elifD1 [] ⟨true, false, false⟩ [] "1" rfl
  exact absurd h2 (by decide)

/-! ## C8: numeric literals in `#if`/`#elif` conditions -/

/-- **C8 (amended).** Hex, binary and octal literals are converted and
integer suffixes are stripped, so `0x10 == 16`, `0b101 == 5`,
`010 == 8` and `16UL == 16` evaluate as true, as do suffixed binary,
octal and digit-only hex literals (`0x10UL`, `0b101UL`, `010UL`); the
suffix-stripping regex `(\d+)[LlUu]+\b` however requires a decimal
digit right before the suffix, so a suffix attached to a hex literal
whose last digit is a letter is not stripped and the condition fails
evaluation (treated as false). -/
theorem safeEval_numeric_literals :
    safeEval "0x10 == 16" = some 1 ∧
    safeEval "0b101 == 5" = some 1 ∧
    safeEval "010 == 8" = some 1 ∧
    safeEval "16UL == 16" = some 1 ∧
    safeEval "0x10UL == 16" = some 1 ∧
    safeEval "0b101UL == 5" = some 1 ∧
    safeEval "010UL == 8" = some 1 := by decide

/-- **C8 counterexample.** `0xFFUL == 255` should evaluate as true per
the claim (`0xFF == 255` does), but the suffix is not stripped — no
decimal digit precedes it — so the safety check rejects the expression
and the condition is treated as false (`none` models the raised
`ValueError`). -/
theorem safeEval_hex_letter_suffix_fails :
    safeEval "0xFFUL == 255" = none ∧ safeEval "0xFF == 255" = some 1 := by decide

/-! ## C4: error behavior of `analyze` -/

/-- **C4 counterexample.** For a nonexistent path, `analyze` does not
fail with `FileMissing`: both analyzers catch the `OSError` from
`getmtime` and return an empty `FileAnalysisResult`. -/
theorem analyze_missing_returns_empty :
    analyzeLegacy fsNone "missing.cpp" ≠ Except.error AnalyzeError.FileMissing ∧
    analyzeLegacy fsNone "missing.cpp" = Except.ok emptyAnalyzerResult := by
  refine ⟨fun h => ?_, rfl⟩
  rw [show analyzeLegacy fsNone "missing.cpp" = Except.ok emptyAnalyzerResult from rfl] at h
  exact Except.noConfusion h

/-- **C4 (amended).** For every path that does not exist on the file
system, `analyze` returns an empty `FileAnalysisResult` (it does not
fail); `analyze` never fails at all, and in particular never fails on
malformed preprocessor syntax: `_parse_directive_struct` is total and
always records the directive with its type, line, position and raw
lines, leaving unparseable fields absent — e.g. a bare `#define` and a
bare `#ifdef` are recorded with no macro name. -/
theorem analyze_error_behavior :
    (∀ fs path, fs path = none →
       analyzeLegacy fs path = Except.ok emptyAnalyzerResult) ∧
    (∀ fs path, ∃ r, analyzeLegacy fs path = Except.ok r) ∧
    (∀ dtype pos ln dlines,
       (parseDirectiveStruct dtype pos ln dlines).directiveType = dtype ∧
       (parseDirectiveStruct dtype pos ln dlines).lineNum = ln ∧
       (parseDirectiveStruct dtype pos ln dlines).bytePos = pos ∧
       (parseDirectiveStruct dtype pos ln dlines).fullText = dlines) ∧
    ((cachedAnalyze "#define\n#ifdef\n").directives.map
        (fun d => (d.directiveType, d.macroName, d.condition)) =
      [("define", none, none), ("ifdef", none, none)]) := by
  refine ⟨fun fs path h => by simp [analyzeLegacy, h], fun fs path => ?_, ?_, by decide⟩
  · cases h : fs path with
    | none => exact ⟨emptyAnalyzerResult, by simp [analyzeLegacy, h]⟩
    | some content => exact ⟨cachedAnalyze content, by simp [analyzeLegacy, h]⟩
  · intro dtype pos ln dlines
    unfold parseDirectiveStruct
    refine ⟨?_, ?_, ?_, ?_⟩ <;> (dsimp only; repeat' split) <;> rfl

/-- Witness for C4 at a concrete missing path. -/
theorem analyze_error_behavior_witness :
    fsNone "a.cpp" = none ∧
    analyzeLegacy fsNone "a.cpp" = Except.ok emptyAnalyzerResult :=
  ⟨rfl, analyze_error_behavior.1 fsNone "a.cpp" rfl⟩

/-! ## C5: the value returned by `DirectHeaderDeps._process_impl` -/

theorem setAdd_nodup {l : List String} {p : String} (h : l.Nodup) :
    (setAdd l p).Nodup := by
  unfold setAdd
  split
  · exact h
  · next hc =>
    refine List.nodup_append.mpr ⟨h, List.nodup_singleton p, ?_⟩
    intro a ha hb
    rw [List.mem_singleton] at hb
    subst hb
    exact hc (by simpa [List.contains] using ha)

theorem dhVisit_fold_nodup (analyzeFile : String → Env → List String × Env) (n : Nat)
    (ih : ∀ p results env, results.Nodup → ((dhVisit analyzeFile n p results env).1).Nodup) :
    ∀ (incs : List String) (acc : List String × Env), acc.1.Nodup →
      ((incs.foldl
          (fun acc inc =>
            if acc.1.contains inc then acc else dhVisit analyzeFile n inc acc.1 acc.2)
          acc).1).Nodup := by
  intro incs
  induction incs with
  | nil => intro acc h; exact h
  | cons inc incs ihl =>
    intro acc h
    simp only [List.foldl_cons]
    split
    · exact ihl acc h
    · exact ihl _ (ih inc acc.1 acc.2 h)

theorem dhVisit_nodup (analyzeFile : String → Env → List String × Env) :
    ∀ fuel p results env, results.Nodup →
      ((dhVisit analyzeFile fuel p results env).1).Nodup := by
  intro fuel
  induction fuel with
  | zero => intro p results env h; exact h
  | succ n ih =>
    intro p results env h
    unfold dhVisit
    dsimp only
    exact dhVisit_fold_nodup analyzeFile n ih (analyzeFile p env).1
      (setAdd results p, (analyzeFile p env).2) (setAdd_nodup h)

/-- **C5 (amended).** `_process_impl(tu)` returns the *set* of header
realpaths — the translation unit's transitive header closure excluding
the TU itself, whose members are exactly the spec's ordered
first-seen depth-first source-order dependency list (each header
appearing once) — but as an unordered Python set: the first-seen order
is not part of the returned value. -/
theorem processImpl_is_spec_set (analyzeFile : String → Env → List String × Env)
    (seed : Env) (fuel : Nat) (σ : Env) (p : String) :
    (dhProcessImpl analyzeFile seed fuel σ p).1 =
      ((specHeaderDependencies analyzeFile seed fuel p : List String) : Multiset String) ∧
    (specHeaderDependencies analyzeFile seed fuel p).Nodup ∧
    p ∉ specHeaderDependencies analyzeFile seed fuel p := by
  refine ⟨rfl, ?_, ?_⟩
  · exact (dhVisit_nodup analyzeFile fuel p [] seed List.nodup_nil).filter _
  · intro hmem
    unfold specHeaderDependencies at hmem
    have := (List.mem_filter.mp hmem).2
    simp at this

/-- **C5 counterexample.** Two translation units whose depth-first
first-seen orders differ (`[a, b]` vs `[b, a]`) produce *equal* return
values: the Python set cannot carry the first-seen order, so
`_process_impl` does not return the ordered list the claim states. -/
theorem headerDeps_order_lost :
    (dhProcessImpl afOrder1 [] 4 [] "u").1 = (dhProcessImpl afOrder2 [] 4 [] "u").1 ∧
    specHeaderDependencies afOrder1 [] 4 "u" = ["a", "b"] ∧
    specHeaderDependencies afOrder2 [] 4 "u" = ["b", "a"] := by
  refine ⟨?_, by decide, by decide⟩
  decide

/-! ## C9: translation-unit order independence -/

/-- **C9.** Running the hunter on `u1` then `u2` yields the same per-TU
dependency sets as `u2` then `u1`: `_process_impl` re-seeds the macro
state at the start of each top-level analysis
(`_initialize_includes_and_macros`), so the result for a TU does not
depend on the object state left by previously processed TUs. -/
theorem headerDeps_order_independent (analyzeFile : String → Env → List String × Env)
    (seed : Env) (fuel : Nat) (σ : Env) (u1 u2 : String) :
    dhRunTUs analyzeFile seed fuel σ [u1, u2] =
      [(u1, (dhProcessImpl analyzeFile seed fuel σ u1).1),
       (u2, (dhProcessImpl analyzeFile seed fuel σ u2).1)] ∧
    dhRunTUs analyzeFile seed fuel σ [u2, u1] =
      [(u2, (dhProcessImpl analyzeFile seed fuel σ u2).1),
       (u1, (dhProcessImpl analyzeFile seed fuel σ u1).1)] ∧
    (∀ σ1 σ2, dhProcessImpl analyzeFile seed fuel σ1 u1 =
        dhProcessImpl analyzeFile seed fuel σ2 u1) :=
  ⟨rfl, rfl, fun _ _ => rfl⟩

/-! ## C7: pair-aware flag deduplication -/

theorem scanUnits_length_le : ∀ fuel flags, (scanUnits fuel flags).length ≤ fuel := by
  intro fuel
  induction fuel with
  | zero => intro flags; simp [scanUnits]
  | succ n ih =>
    intro flags
    cases flags with
    | nil => simp [scanUnits]
    | cons flag rest =>
      simp only [scanUnits]
      cases matchedFlagPfx flag with
      | none => simpa using Nat.succ_le_succ (ih rest)
      | some pfx =>
        dsimp only
        by_cases hsep : (flag == pfx && !rest.isEmpty) = true
        · rw [if_pos hsep]
          simpa using Nat.succ_le_succ (ih rest.tail)
        · rw [if_neg hsep]
          by_cases hpre : pfx.data.isPrefixOf flag.data = true
          · rw [if_pos hpre]
            simpa using Nat.succ_le_succ (ih rest)
          · rw [if_neg hpre]
            exact (ih rest).trans (Nat.le_succ n)

theorem dedupUnits_fuel_succ :
    ∀ (us : List FlagUnit) (n : Nat) rendered seen, us.length ≤ n →
      dedupUnits (n + 1) us rendered seen = dedupUnits n us rendered seen := by
  intro us
  induction us with
  | nil => intro n rendered seen _; cases n <;> rfl
  | cons u rest ihu =>
    intro n rendered seen hlen
    cases n with
    | zero => simp at hlen
    | succ m =>
      simp only [List.length_cons, Nat.succ_le_succ_iff] at hlen
      cases u with
      | pair pfx arg r =>
        simp only [dedupUnits]
        by_cases hdup : ((seenArgs seen pfx).contains arg) = true
        · rw [if_pos hdup, if_pos hdup]
          exact ihu m _ _ hlen
        · rw [if_neg hdup, if_neg hdup, ihu m _ _ hlen]
      | plain str =>
        simp only [dedupUnits]
        by_cases hcon : (rendered.contains str) = true
        · rw [if_pos hcon, if_pos hcon]
          exact ihu m _ _ hlen
        · rw [if_neg hcon, if_neg hcon, ihu m _ _ hlen]

theorem dedupGo_factor :
    ∀ fuel flags acc seen,
      dedupGo fuel flags acc seen =
        acc ++ (dedupUnits fuel (scanUnits fuel flags) acc seen).flatMap renderUnit := by
  intro fuel
  induction fuel with
  | zero => intro flags acc seen; simp [dedupGo, scanUnits, dedupUnits]
  | succ n ih =>
    intro flags acc seen
    cases flags with
    | nil => simp [dedupGo, scanUnits, dedupUnits]
    | cons flag rest =>
      simp only [dedupGo, scanUnits]
      cases hm : matchedFlagPfx flag with
      | none =>
        dsimp only
        by_cases hcon : acc.contains flag
        · simp only [hcon, if_true, dedupUnits, ih]
        · simp only [hcon, if_false, Bool.false_eq_true, dedupUnits, ih, renderUnit,
            List.flatMap_cons, List.append_assoc, List.singleton_append]
      | some pfx =>
        dsimp only
        by_cases hsep : (flag == pfx && !rest.isEmpty) = true
        · simp only [hsep, if_true]
          by_cases hdup : ((seenArgs seen pfx).contains (rest.headD "")) = true
          · simp only [hdup, if_true, dedupUnits, ih]
          · simp only [hdup, if_false, Bool.false_eq_true, dedupUnits, ih, renderUnit,
              List.flatMap_cons, List.append_assoc, List.cons_append, List.singleton_append,
              List.nil_append]
        · simp only [hsep, if_false, Bool.false_eq_true]
          by_cases hpre : pfx.data.isPrefixOf flag.data = true
          · simp only [hpre, if_true]
            by_cases hdup :
                ((seenArgs seen pfx).contains (String.mk (flag.data.drop pfx.data.length))) = true
            · simp only [hdup, if_true, dedupUnits, ih]
            · simp only [hdup, if_false, Bool.false_eq_true, dedupUnits, ih, renderUnit,
                List.flatMap_cons, List.append_assoc, List.singleton_append]
          · simp only [hpre, if_false, Bool.false_eq_true, ih]
            rw [dedupUnits_fuel_succ _ n acc seen (scanUnits_length_le n rest)]

theorem seenArgs_cons (e : String × List String) (restS : List (String × List String))
    (q : String) :
    seenArgs (e :: restS) q = if e.1 == q then e.2 else seenArgs restS q := rfl

theorem seenArgs_map_ne (pfx arg q : String) (hq : q ≠ pfx) :
    ∀ seen : List (String × List String),
      seenArgs (seen.map (fun e => if e.1 == pfx then (e.1, e.2 ++ [arg]) else e)) q =
        seenArgs seen q := by
  intro seen
  induction seen with
  | nil => rfl
  | cons e restS ihs =>
    rw [List.map_cons, seenArgs_cons, seenArgs_cons]
    by_cases he : (e.1 == pfx) = true
    · have he' : e.1 = pfx := beq_iff_eq.mp he
      have hne : (e.1 == q) = false :=
        beq_eq_false_iff_ne.mpr (fun h => hq ((h ▸ he' : q = pfx)))
      rw [if_pos he]
      simp only [hne, Bool.false_eq_true, if_false]
      exact ihs
    · rw [if_neg he]
      by_cases heq : (e.1 == q) = true
      · rw [if_pos heq, if_pos heq]
      · rw [if_neg heq, if_neg heq]
        exact ihs

theorem seenArgs_map_eq (pfx arg : String) :
    ∀ seen : List (String × List String), seen.any (fun e => e.1 == pfx) = true →
      seenArgs (seen.map (fun e => if e.1 == pfx then (e.1, e.2 ++ [arg]) else e)) pfx =
        seenArgs seen pfx ++ [arg] := by
  intro seen
  induction seen with
  | nil => intro h; simp at h
  | cons e restS ihs =>
    intro hany
    rw [List.map_cons]
    by_cases he : (e.1 == pfx) = true
    · rw [if_pos he, seenArgs_cons, seenArgs_cons, if_pos he]
      simp only [he, if_true]
    · rw [if_neg he, seenArgs_cons, seenArgs_cons, if_neg he, if_neg he]
      simp only [List.any_cons, he, Bool.false_or] at hany
      exact ihs hany

theorem seenArgs_of_not_any (pfx : String) :
    ∀ seen : List (String × List String), seen.any (fun e => e.1 == pfx) = false →
      seenArgs seen pfx = [] := by
  intro seen
  induction seen with
  | nil => intro _; rfl
  | cons e restS ihs =>
    intro hany
    simp only [List.any_cons, Bool.or_eq_false_iff] at hany
    rw [seenArgs_cons, if_neg (by simp [hany.1])]
    exact ihs hany.2

theorem seenArgs_append_self (q arg : String) :
    ∀ seen : List (String × List String), seen.any (fun e => e.1 == q) = false →
      seenArgs (seen ++ [(q, [arg])]) q = [arg] := by
  intro seen
  induction seen with
  | nil => intro _; rw [List.nil_append, seenArgs_cons, if_pos (by simp)]
  | cons e restS ihs =>
    intro hany
    simp only [List.any_cons, Bool.or_eq_false_iff] at hany
    rw [List.cons_append, seenArgs_cons, if_neg (by simp [hany.1])]
    exact ihs hany.2

theorem seenArgs_append_ne (pfx arg q : String) (hq : q ≠ pfx) :
    ∀ seen : List (String × List String),
      seenArgs (seen ++ [(pfx, [arg])]) q = seenArgs seen q := by
  intro seen
  induction seen with
  | nil =>
    rw [List.nil_append, seenArgs_cons,
      if_neg (by simp only [beq_iff_eq]; exact fun h => hq h.symm)]
  | cons e restS ihs =>
    rw [List.cons_append, seenArgs_cons, seenArgs_cons]
    by_cases heq : (e.1 == q) = true
    · rw [if_pos heq, if_pos heq]
    · rw [if_neg heq, if_neg heq]
      exact ihs

theorem seenArgs_seenAdd (pfx arg q : String) (seen : List (String × List String)) :
    seenArgs (seenAdd seen pfx arg) q =
      if q = pfx then seenArgs seen pfx ++ [arg] else seenArgs seen q := by
  unfold seenAdd
  by_cases hq : q = pfx
  · subst hq
    rw [if_pos rfl]
    split
    · next hany => exact seenArgs_map_eq q arg seen hany
    · next hany =>
      have hany' : seen.any (fun e => e.1 == q) = false := by
        cases h : seen.any (fun e => e.1 == q)
        · rfl
        · exact absurd h hany
      rw [seenArgs_of_not_any q seen hany', List.nil_append]
      exact seenArgs_append_self q arg seen hany'
  · rw [if_neg hq]
    split
    · exact seenArgs_map_ne pfx arg q hq seen
    · exact seenArgs_append_ne pfx arg q hq seen

theorem mem_seenArgs_contains {l : List String} {a : String} :
    l.contains a = true ↔ a ∈ l := by
  simp [List.contains]

theorem pairKeys_dedupUnits_not_seen :
    ∀ fuel us rendered seen p a,
      (p, a) ∈ pairKeys (dedupUnits fuel us rendered seen) →
      a ∉ seenArgs seen p := by
  intro fuel
  induction fuel with
  | zero => intro us rendered seen p a h; simp [dedupUnits, pairKeys] at h
  | succ n ih =>
    intro us rendered seen p a h
    cases us with
    | nil => simp [dedupUnits, pairKeys] at h
    | cons u rest =>
      cases u with
      | pair pfx arg r =>
        simp only [dedupUnits] at h
        by_cases hdup : ((seenArgs seen pfx).contains arg) = true
        · rw [if_pos hdup] at h
          exact ih _ _ _ _ _ h
        · rw [if_neg hdup] at h
          simp only [pairKeys, List.filterMap_cons] at h
          rcases List.mem_cons.mp h with h1 | h2
          · rw [Prod.mk.injEq] at h1
            obtain ⟨hp, ha⟩ := h1
            subst hp; subst ha
            exact fun hmem => hdup (mem_seenArgs_contains.mpr hmem)
          · have h3 := ih _ _ _ _ _ h2
            rw [seenArgs_seenAdd] at h3
            intro hmem
            apply h3
            by_cases hp : p = pfx
            · rw [if_pos hp]
              exact List.mem_append_left _ (hp ▸ hmem)
            · rw [if_neg hp]
              exact hmem
      | plain s =>
        simp only [dedupUnits] at h
        by_cases hcon : (rendered.contains s) = true
        · rw [if_pos hcon] at h
          exact ih _ _ _ _ _ h
        · rw [if_neg hcon] at h
          simp only [pairKeys, List.filterMap_cons] at h
          exact ih _ _ _ _ _ h

theorem pairKeys_dedupUnits_nodup :
    ∀ fuel us rendered seen, (pairKeys (dedupUnits fuel us rendered seen)).Nodup := by
  intro fuel
  induction fuel with
  | zero => intro us rendered seen; simp [dedupUnits, pairKeys]
  | succ n ih =>
    intro us rendered seen
    cases us with
    | nil => simp [dedupUnits, pairKeys]
    | cons u rest =>
      cases u with
      | pair pfx arg r =>
        simp only [dedupUnits]
        by_cases hdup : ((seenArgs seen pfx).contains arg) = true
        · rw [if_pos hdup]; exact ih _ _ _
        · rw [if_neg hdup]
          simp only [pairKeys, List.filterMap_cons]
          refine List.nodup_cons.mpr ⟨fun hmem => ?_, ih _ _ _⟩
          have h3 := pairKeys_dedupUnits_not_seen _ _ _ _ _ _ hmem
          rw [seenArgs_seenAdd, if_pos rfl] at h3
          exact h3 (List.mem_append_right _ (List.mem_singleton_self arg))
      | plain s =>
        simp only [dedupUnits]
        by_cases hcon : (rendered.contains s) = true
        · rw [if_pos hcon]; exact ih _ _ _
        · rw [if_neg hcon]
          simp only [pairKeys, List.filterMap_cons]
          exact ih _ _ _

theorem pairKeys_dedupUnits_sublist :
    ∀ fuel us rendered seen,
      (pairKeys (dedupUnits fuel us rendered seen)).Sublist (pairKeys us) := by
  intro fuel
  induction fuel with
  | zero => intro us rendered seen; simp [dedupUnits, pairKeys]
  | succ n ih =>
    intro us rendered seen
    cases us with
    | nil => simp [dedupUnits, pairKeys]
    | cons u rest =>
      cases u with
      | pair pfx arg r =>
        simp only [dedupUnits, pairKeys, List.filterMap_cons]
        by_cases hdup : ((seenArgs seen pfx).contains arg) = true
        · rw [if_pos hdup]
          exact (ih _ _ _).trans (List.sublist_cons_self _ _)
        · rw [if_neg hdup]
          simp only [pairKeys, List.filterMap_cons]
          exact (ih _ _ _).cons₂ _
      | plain s =>
        simp only [dedupUnits, pairKeys, List.filterMap_cons]
        by_cases hcon : (rendered.contains s) = true
        · rw [if_pos hcon]; exact ih _ _ _
        · rw [if_neg hcon]
          simp only [pairKeys, List.filterMap_cons]
          exact ih _ _ _

theorem pairKeys_dedupUnits_complete :
    ∀ fuel us rendered seen p a, us.length ≤ fuel →
      (p, a) ∈ pairKeys us →
      a ∈ seenArgs seen p ∨ (p, a) ∈ pairKeys (dedupUnits fuel us rendered seen) := by
  intro fuel
  induction fuel with
  | zero =>
    intro us rendered seen p a hlen hmem
    rw [Nat.le_zero, List.length_eq_zero] at hlen
    subst hlen
    simp [pairKeys] at hmem
  | succ n ih =>
    intro us rendered seen p a hlen hmem
    cases us with
    | nil => simp [pairKeys] at hmem
    | cons u rest =>
      simp only [List.length_cons, Nat.succ_le_succ_iff] at hlen
      cases u with
      | pair pfx arg r =>
        simp only [pairKeys, List.filterMap_cons] at hmem
        simp only [dedupUnits]
        rcases List.mem_cons.mp hmem with h1 | h2
        · rw [Prod.mk.injEq] at h1
          obtain ⟨hp, ha⟩ := h1
          subst hp; subst ha
          by_cases hdup : ((seenArgs seen p).contains a) = true
          · exact Or.inl (mem_seenArgs_contains.mp hdup)
          · rw [if_neg hdup]
            exact Or.inr (by simp [pairKeys, List.filterMap_cons])
        · by_cases hdup : ((seenArgs seen pfx).contains arg) = true
          · rw [if_pos hdup]
            exact ih rest rendered seen p a hlen h2
          · rw [if_neg hdup]
            rcases ih rest (rendered ++ renderUnit (FlagUnit.pair pfx arg r))
                (seenAdd seen pfx arg) p a hlen h2 with h3 | h3
            · rw [seenArgs_seenAdd] at h3
              by_cases hp : p = pfx
              · rw [if_pos hp] at h3
                rcases List.mem_append.mp h3 with h4 | h4
                · exact Or.inl (hp ▸ h4)
                · rw [List.mem_singleton] at h4
                  subst h4; subst hp
                  exact Or.inr (by simp [pairKeys, List.filterMap_cons])
              · rw [if_neg hp] at h3
                exact Or.inl h3
            · exact Or.inr (by simp only [pairKeys, List.filterMap_cons]; exact List.mem_cons_of_mem _ h3)
      | plain s =>
        simp only [pairKeys, List.filterMap_cons] at hmem
        simp only [dedupUnits]
        by_cases hcon : (rendered.contains s) = true
        · rw [if_pos hcon]
          exact ih rest rendered seen p a hlen hmem
        · rw [if_neg hcon]
          rcases ih rest (rendered ++ [s]) seen p a hlen hmem with h3 | h3
          · exact Or.inl h3
          · exact Or.inr (by simp only [pairKeys, List.filterMap_cons]; exact h3)

/-- **C7.** The flag-list accumulator maps the claim's example input to
its expected output; in general, `deduplicate_compiler_flags` is the
composition of the token scan into flag-argument units and plain
tokens, a first-seen filter, and the rendering of the kept units in
their first-seen surface form: the kept `(prefix, argument)` pairs are
duplicate-free (a flag taking an argument is deduplicated as a unit by
its argument value), form a subsequence of the scanned pairs (order of
first occurrences preserved), and every scanned pair is represented in
the output. -/
theorem deduplicate_compiler_flags_spec :
    deduplicateCompilerFlags ["-I", "a", "-Ia", "-I", "b", "-DX", "-DX"] =
      ["-I", "a", "-I", "b", "-DX"] ∧
    (∀ flags, deduplicateCompilerFlags flags =
       (dedupUnits flags.length (scanUnits flags.length flags) [] []).flatMap renderUnit) ∧
    (∀ flags, (pairKeys (dedupUnits flags.length (scanUnits flags.length flags) [] [])).Nodup) ∧
    (∀ flags,
       (pairKeys (dedupUnits flags.length (scanUnits flags.length flags) [] [])).Sublist
         (pairKeys (scanUnits flags.length flags))) ∧
    (∀ flags p a, (p, a) ∈ pairKeys (scanUnits flags.length flags) →
       (p, a) ∈ pairKeys (dedupUnits flags.length (scanUnits flags.length flags) [] [])) := by
  refine ⟨by decide, fun flags => ?_, fun flags => pairKeys_dedupUnits_nodup _ _ _ _,
    fun flags => pairKeys_dedupUnits_sublist _ _ _ _, fun flags p a hmem => ?_⟩
  · simpa using dedupGo_factor flags.length flags [] []
  · rcases pairKeys_dedupUnits_complete flags.length (scanUnits flags.length flags) [] [] p a
        (scanUnits_length_le _ _) hmem with h | h
    · simp [seenArgs] at h
    · exact h

/-- Witness for C7: the pair `("-I", "a")` scanned from a concrete
input appears among the kept units. -/
theorem deduplicate_compiler_flags_spec_witness :
    ("-I", "a") ∈ pairKeys (scanUnits (["-I", "a"] : List String).length ["-I", "a"]) ∧
    ("-I", "a") ∈
      pairKeys (dedupUnits (["-I", "a"] : List String).length
        (scanUnits (["-I", "a"] : List String).length ["-I", "a"]) [] []) :=
  ⟨by decide, deduplicate_compiler_flags_spec.2.2.2.2 ["-I", "a"] "-I" "a" (by decide)⟩

/-! ## Environment lemmas (shared by C1 and C2) -/

theorem envLookup_cons (p : String × String) (rest : Env) (m : String) :
    envLookup (p :: rest) m = if p.1 == m then some p.2 else envLookup rest m := rfl

theorem envLookup_map_replace_ne (k v m : String) (hm : m ≠ k) :
    ∀ e : Env,
      envLookup (e.map (fun p => if p.1 == k then (k, v) else p)) m = envLookup e m := by
  intro e
  induction e with
  | nil => rfl
  | cons p rest ih =>
    rw [List.map_cons, envLookup_cons, envLookup_cons]
    by_cases hp : (p.1 == k) = true
    · have hp' : p.1 = k := beq_iff_eq.mp hp
      rw [if_pos hp]
      have h1 : ((k, v).1 == m) = false := beq_eq_false_iff_ne.mpr (fun h => hm h.symm)
      have h2 : (p.1 == m) = false :=
        beq_eq_false_iff_ne.mpr (fun h => hm ((hp' ▸ h : k = m)).symm)
      rw [h1, h2]
      simp only [Bool.false_eq_true, if_false]
      exact ih
    · rw [if_neg hp]
      by_cases hq : (p.1 == m) = true
      · rw [if_pos hq, if_pos hq]
      · rw [if_neg hq, if_neg hq]
        exact ih

theorem envLookup_map_replace_eq (k v : String) :
    ∀ e : Env, e.any (fun p => p.1 == k) = true →
      envLookup (e.map (fun p => if p.1 == k then (k, v) else p)) k = some v := by
  intro e
  induction e with
  | nil => intro h; simp at h
  | cons p rest ih =>
    intro hany
    rw [List.map_cons]
    by_cases hp : (p.1 == k) = true
    · rw [if_pos hp, envLookup_cons, if_pos (by simp)]
    · rw [if_neg hp, envLookup_cons, if_neg hp]
      simp only [List.any_cons, hp, Bool.false_or] at hany
      exact ih hany

theorem envLookup_eq_none_of_not_any (k : String) :
    ∀ e : Env, e.any (fun p => p.1 == k) = false → envLookup e k = none := by
  intro e
  induction e with
  | nil => intro _; rfl
  | cons p rest ih =>
    intro hany
    simp only [List.any_cons, Bool.or_eq_false_iff] at hany
    rw [envLookup_cons, if_neg (by simp [hany.1])]
    exact ih hany.2

theorem envLookup_append_one (k v m : String) :
    ∀ e : Env, envLookup (e ++ [(k, v)]) m =
      match envLookup e m with
      | some w => some w
      | none => if k == m then some v else none := by
  intro e
  induction e with
  | nil =>
    by_cases h : (k == m) = true <;> simp [envLookup, h]
  | cons p rest ih =>
    rw [List.cons_append, envLookup_cons, envLookup_cons]
    by_cases hq : (p.1 == m) = true
    · rw [if_pos hq, if_pos hq]
    · rw [if_neg hq, if_neg hq]
      exact ih

theorem envLookup_insert (e : Env) (k v m : String) :
    envLookup (envInsert e k v) m = if m = k then some v else envLookup e m := by
  unfold envInsert
  split
  · next hany =>
    by_cases hm : m = k
    · subst hm
      rw [if_pos rfl]
      exact envLookup_map_replace_eq m v e hany
    · rw [if_neg hm]
      exact envLookup_map_replace_ne k v m hm e
  · next hany =>
    have hany' : e.any (fun p => p.1 == k) = false := by
      cases h : e.any (fun p => p.1 == k)
      · rfl
      · exact absurd h hany
    rw [envLookup_append_one]
    by_cases hm : m = k
    · subst hm
      rw [if_pos rfl, envLookup_eq_none_of_not_any m e hany']
      simp
    · rw [if_neg hm]
      have hk : (k == m) = false := beq_eq_false_iff_ne.mpr (fun h => hm h.symm)
      cases hl : envLookup e m
      · simp [hk]
      · rfl

theorem envLookup_erase (k m : String) :
    ∀ e : Env, envLookup (envErase e k) m = if m = k then none else envLookup e m := by
  intro e
  induction e with
  | nil => by_cases h : m = k <;> simp [envErase, envLookup, h]
  | cons p rest ih =>
    unfold envErase at ih ⊢
    rw [List.filter_cons]
    by_cases hp : (p.1 != k) = true
    · rw [if_pos hp, envLookup_cons]
      have hpk : p.1 ≠ k := bne_iff_ne.mp hp
      by_cases hq : (p.1 == m) = true
      · have hq' : p.1 = m := beq_iff_eq.mp hq
        have hmk : m ≠ k := fun h => hpk (hq'.trans h)
        rw [if_pos hq, if_neg hmk, envLookup_cons, if_pos hq]
      · rw [if_neg hq, ih]
        by_cases hm : m = k
        · rw [if_pos hm, if_pos hm]
        · rw [if_neg hm, if_neg hm, envLookup_cons, if_neg hq]
    · rw [if_neg hp, ih]
      have hp' : p.1 = k := by
        by_contra hne
        exact hp (bne_iff_ne.mpr hne)
      by_cases hm : m = k
      · rw [if_pos hm, if_pos hm]
      · rw [if_neg hm, if_neg hm, envLookup_cons,
          if_neg (by simp only [hp', beq_iff_eq]; exact fun h => hm h.symm)]

theorem envEquiv_insert {e₁ e₂ : Env} (h : envEquiv e₁ e₂) (k v : String) :
    envEquiv (envInsert e₁ k v) (envInsert e₂ k v) := by
  intro m
  rw [envLookup_insert, envLookup_insert, h m]

theorem envEquiv_erase {e₁ e₂ : Env} (h : envEquiv e₁ e₂) (k : String) :
    envEquiv (envErase e₁ k) (envErase e₂ k) := by
  intro m
  rw [envLookup_erase, envLookup_erase, h m]

theorem envContains_congr {e₁ e₂ : Env} (h : envEquiv e₁ e₂) (k : String) :
    envContains e₁ k = envContains e₂ k := by
  unfold envContains
  rw [h k]

/-! ## Congruence of the evaluator under dict-equal environments -/

theorem handleDefine_congr (d : Directive) (stack : List Frame) {m₁ m₂ : Env}
    (h : envEquiv m₁ m₂) : envEquiv (handleDefine d stack m₁) (handleDefine d stack m₂) := by
  unfold handleDefine
  split_ifs
  · exact h
  · cases optNonempty d.macroName with
    | some n => exact envEquiv_insert h n _
    | none => exact h

theorem handleUndef_congr (d : Directive) (stack : List Frame) {m₁ m₂ : Env}
    (h : envEquiv m₁ m₂) : envEquiv (handleUndef d stack m₁) (handleUndef d stack m₂) := by
  unfold handleUndef
  split_ifs
  · exact h
  · cases optNonempty d.macroName with
    | none => exact h
    | some n =>
      dsimp only
      rw [envContains_congr h n]
      split_ifs
      · exact envEquiv_erase h n
      · exact h

theorem handleIfdef_congr (d : Directive) (stack : List Frame) {m₁ m₂ : Env}
    (h : envEquiv m₁ m₂) : handleIfdef d stack m₁ = handleIfdef d stack m₂ := by
  unfold handleIfdef
  cases optNonempty d.macroName with
  | none => rfl
  | some n => dsimp only; rw [envContains_congr h n]

theorem handleIfndef_congr (d : Directive) (stack : List Frame) {m₁ m₂ : Env}
    (h : envEquiv m₁ m₂) : handleIfndef d stack m₁ = handleIfndef d stack m₂ := by
  unfold handleIfndef
  cases optNonempty d.macroName with
  | none => rfl
  | some n => dsimp only; rw [envContains_congr h n]

theorem handleIf_congr (d : Directive) (stack : List Frame) {m₁ m₂ : Env}
    (h : envEquiv m₁ m₂) : handleIf d stack m₁ = handleIf d stack m₂ := by
  unfold handleIf
  rw [show envLookup m₁ = envLookup m₂ from funext h]

theorem handleElif_congr (d : Directive) (stack : List Frame) {m₁ m₂ : Env}
    (h : envEquiv m₁ m₂) : handleElif d stack m₁ = handleElif d stack m₂ := by
  unfold handleElif
  rw [show envLookup m₁ = envLookup m₂ from funext h]

theorem handleDirective_congr (d : Directive) (stack : List Frame) {m₁ m₂ : Env}
    (h : envEquiv m₁ m₂) :
    (handleDirectiveStructured d stack m₁).1 = (handleDirectiveStructured d stack m₂).1 ∧
    envEquiv (handleDirectiveStructured d stack m₁).2.1
      (handleDirectiveStructured d stack m₂).2.1 ∧
    (handleDirectiveStructured d stack m₁).2.2 =
      (handleDirectiveStructured d stack m₂).2.2 := by
  unfold handleDirectiveStructured
  split_ifs
  all_goals dsimp only
  · exact ⟨rfl, handleDefine_congr d stack h, rfl⟩
  · exact ⟨rfl, handleUndef_congr d stack h, rfl⟩
  · exact ⟨handleIfdef_congr d stack h, h, rfl⟩
  · exact ⟨handleIfndef_congr d stack h, h, rfl⟩
  · exact ⟨handleIf_congr d stack h, h, rfl⟩
  · exact ⟨handleElif_congr d stack h, h, rfl⟩
  · exact ⟨rfl, h, rfl⟩
  · exact ⟨rfl, h, rfl⟩
  · exact ⟨rfl, h, rfl⟩

theorem processLoop_congr (fa : FileAnalysis) :
    ∀ fuel i stack acc pending (m₁ m₂ : Env), envEquiv m₁ m₂ →
      (processLoop fa fuel i stack acc m₁ pending).1 =
        (processLoop fa fuel i stack acc m₂ pending).1 ∧
      envEquiv (processLoop fa fuel i stack acc m₁ pending).2
        (processLoop fa fuel i stack acc m₂ pending).2 := by
  intro fuel
  induction fuel with
  | zero => intro i stack acc pending m₁ m₂ h; exact ⟨rfl, h⟩
  | succ n ih =>
    intro i stack acc pending m₁ m₂ h
    unfold processLoop
    by_cases hi : i < fa.lineCount
    · rw [if_pos hi, if_pos hi]
      cases pending with
      | nil => exact ih (i + 1) stack _ [] m₁ m₂ h
      | cons ln rest =>
        dsimp only
        by_cases hln : (i == ln) = true
        · rw [if_pos hln, if_pos hln]
          cases hfind : fa.directiveByLine.find? (fun p => p.1 == i) with
          | none =>
            dsimp only
            exact ih (i + 1) stack _ rest m₁ m₂ h
          | some pd =>
            obtain ⟨a, d⟩ := pd
            dsimp only
            obtain ⟨hs, hm, hb⟩ := handleDirective_congr d stack h
            rcases h1 : handleDirectiveStructured d stack m₁ with ⟨s₁, mm₁, b₁⟩
            rcases h2 : handleDirectiveStructured d stack m₂ with ⟨s₂, mm₂, b₂⟩
            rw [h1, h2] at hs hm hb
            dsimp only at hs hm hb
            subst hs
            subst hb
            dsimp only
            exact ih (i + d.continuationLines + 1) s₁ _ rest mm₁ mm₂ hm
        · rw [if_neg hln, if_neg hln]
          exact ih (i + 1) stack _ (ln :: rest) m₁ m₂ h
    · rw [if_neg hi, if_neg hi]
      exact ⟨rfl, h⟩

theorem evaluate_congr (fa : FileAnalysis) {m₁ m₂ : Env} (h : envEquiv m₁ m₂) :
    ResultEquiv (evaluate fa m₁) (evaluate fa m₂) := by
  obtain ⟨h1, h2⟩ := processLoop_congr fa fa.lineCount 0 [⟨true, false, false⟩] []
    (sortNat (fa.directiveByLine.map Prod.fst)) m₁ m₂ h
  unfold evaluate processStructured
  dsimp only
  exact ⟨h1, by rw [h1], by rw [h1], by rw [h1], h2⟩

/-! ## Well-formed environments and the frozenset cache key -/

theorem mem_of_envLookup_eq_some {e : Env} {k v : String}
    (h : envLookup e k = some v) : (k, v) ∈ e := by
  induction e with
  | nil => cases h
  | cons p rest ih =>
    obtain ⟨a, b⟩ := p
    rw [envLookup] at h
    by_cases hk : (a == k) = true
    · rw [if_pos hk] at h
      obtain rfl : b = v := Option.some.inj h
      obtain rfl : a = k := by simpa using hk
      exact List.mem_cons_self _ _
    · rw [if_neg hk] at h
      exact List.mem_cons_of_mem _ (ih h)

theorem envLookup_eq_some_of_mem {e : Env} {k v : String}
    (hnd : NodupKeys e) (h : (k, v) ∈ e) : envLookup e k = some v := by
  induction e with
  | nil => cases h
  | cons p rest ih =>
    obtain ⟨a, b⟩ := p
    rw [NodupKeys, List.map_cons, List.nodup_cons] at hnd
    rw [envLookup]
    rcases List.mem_cons.mp h with h | h
    · have ha : a = k := (congrArg Prod.fst h).symm
      have hbv : b = v := (congrArg Prod.snd h).symm
      subst ha
      subst hbv
      rw [if_pos (by simp)]
    · by_cases hk : (a == k) = true
      · exfalso
        have hmem : a ∈ List.map Prod.fst rest := by
          have hk' : k ∈ List.map Prod.fst rest := List.mem_map_of_mem Prod.fst h
          simpa [show a = k by simpa using hk] using hk'
        exact hnd.1 hmem
      · rw [if_neg hk]
        exact ih hnd.2 h

theorem contains_iff_mem_pair {l : Env} {p : String × String} :
    l.contains p = true ↔ p ∈ l := by
  simp [List.contains, List.elem_iff]

/-- Two well-formed environments with the same `frozenset` of (key,
value) pairs are dict-equal. -/
theorem envSetEq_equiv {a b : Env} (ha : NodupKeys a) (hb : NodupKeys b)
    (h : envSetEq a b = true) : envEquiv a b := by
  rw [envSetEq, Bool.and_eq_true, List.all_eq_true, List.all_eq_true] at h
  intro k
  cases hla : envLookup a k with
  | some v =>
    have hm : (k, v) ∈ b := contains_iff_mem_pair.mp (h.1 _ (mem_of_envLookup_eq_some hla))
    exact (envLookup_eq_some_of_mem hb hm).symm
  | none =>
    cases hlb : envLookup b k with
    | none => rfl
    | some v =>
      have hm : (k, v) ∈ a := contains_iff_mem_pair.mp (h.2 _ (mem_of_envLookup_eq_some hlb))
      rw [envLookup_eq_some_of_mem ha hm] at hla
      cases hla

theorem ResultEquiv_refl (r : ProcessingResult) : ResultEquiv r r := by
  unfold ResultEquiv
  exact ⟨rfl, rfl, rfl, rfl, fun _ => rfl⟩

/-! ## The cache invariant along any call sequence -/

theorem getOrCompute_ok {st : CacheState} {fa : FileAnalysis} {env : Env}
    (hst : CacheOK st) (henv : NodupKeys env) :
    CacheOK (getOrCompute st fa env).2 := by
  unfold getOrCompute
  by_cases hinv : isMacroInvariant fa env = true
  · rw [if_pos hinv]
    cases hfind : findInv st fa with
    | some r => exact hst
    | none =>
      dsimp only
      refine ⟨?_, hst.2⟩
      intro e he
      rcases List.mem_cons.mp he with he | he
      · subst he
        exact ⟨env, henv, hinv, rfl⟩
      · exact hst.1 e he
  · rw [if_neg hinv]
    cases hfind : findVar st fa env with
    | some r => exact hst
    | none =>
      dsimp only
      refine ⟨hst.1, ?_⟩
      intro e he
      rcases List.mem_cons.mp he with he | he
      · subst he
        exact ⟨henv, Bool.eq_false_iff.mpr hinv, rfl⟩
      · exact hst.2 e he

theorem runCalls_ok (calls : List (FileAnalysis × Env)) :
    ∀ st, CacheOK st → (∀ c ∈ calls, NodupKeys c.2) → CacheOK (runCalls st calls) := by
  induction calls with
  | nil => intro st hst _; exact hst
  | cons c rest ih =>
    intro st hst hc
    obtain ⟨fa, env⟩ := c
    exact ih _ (getOrCompute_ok hst (hc _ (List.mem_cons_self _ _)))
      (fun c hcm => hc c (List.mem_cons_of_mem _ hcm))

theorem emptyCache_ok : CacheOK emptyCache := by
  constructor
  · intro e he
    cases he
  · intro e he
    cases he

theorem findInv_some {st : CacheState} {fa : FileAnalysis} {r : ProcessingResult}
    (h : findInv st fa = some r) :
    ∃ e ∈ st.invCache, e.1 = fa ∧ e.2 = r := by
  unfold findInv at h
  cases hf : st.invCache.find? (fun e => e.1 == fa) with
  | none => rw [hf] at h; cases h
  | some e =>
    rw [hf] at h
    refine ⟨e, List.mem_of_find?_eq_some hf, ?_, ?_⟩
    · simpa using List.find?_some hf
    · simpa using h

theorem findVar_some {st : CacheState} {fa : FileAnalysis} {env : Env}
    {r : ProcessingResult} (h : findVar st fa env = some r) :
    ∃ e ∈ st.varCache, e.1.1 = fa ∧ envSetEq e.1.2 env = true ∧ e.2 = r := by
  unfold findVar at h
  cases hf : st.varCache.find? (fun e => e.1.1 == fa && envSetEq e.1.2 env) with
  | none => rw [hf] at h; cases h
  | some e =>
    rw [hf] at h
    have hp := List.find?_some hf
    rw [Bool.and_eq_true] at hp
    refine ⟨e, List.mem_of_find?_eq_some hf, ?_, hp.2, ?_⟩
    · simpa using hp.1
    · simpa using h

/-- C1.  What `get_or_compute_preprocessing` actually returns after an
arbitrary call sequence (every call passing a well-formed macro dict):
on the variant-cache path (invariance fails) the result is dict-equal to
the fresh `evaluate fa env`; on an invariant-cache miss it literally is
the fresh evaluation; but on an invariant-cache hit the result is the
stored evaluation of `fa` under the environment of the call that
populated the entry — not under `env` —, so its `updated_macros` need
not agree with the fresh evaluation under `env` (the claim's
unconditional equality fails; see the counterexample). -/
theorem get_or_compute_cache_behavior (calls : List (FileAnalysis × Env))
    (fa : FileAnalysis) (env : Env)
    (hcalls : ∀ c ∈ calls, NodupKeys c.2) (henv : NodupKeys env) :
    (isMacroInvariant fa env = false →
      ResultEquiv (getOrCompute (runCalls emptyCache calls) fa env).1
        (evaluate fa env)) ∧
    (isMacroInvariant fa env = true →
      findInv (runCalls emptyCache calls) fa = none →
      (getOrCompute (runCalls emptyCache calls) fa env).1 = evaluate fa env) ∧
    (∀ r₀, isMacroInvariant fa env = true →
      findInv (runCalls emptyCache calls) fa = some r₀ →
      (getOrCompute (runCalls emptyCache calls) fa env).1 = r₀ ∧
      ∃ env₀, NodupKeys env₀ ∧ isMacroInvariant fa env₀ = true ∧
        r₀ = evaluate fa env₀) := by
  have hok : CacheOK (runCalls emptyCache calls) :=
    runCalls_ok calls emptyCache emptyCache_ok hcalls
  set st := runCalls emptyCache calls with hstdef
  refine ⟨?_, ?_, ?_⟩
  · intro hinv
    unfold getOrCompute
    rw [if_neg (by simp [hinv])]
    cases hfind : findVar st fa env with
    | none =>
      dsimp only
      exact ResultEquiv_refl _
    | some r =>
      dsimp only
      obtain ⟨e, hmem, hfa, hset, hr⟩ := findVar_some hfind
      obtain ⟨hnk, _, heval⟩ := hok.2 e hmem
      rw [← hr, heval, hfa]
      exact evaluate_congr fa (envSetEq_equiv hnk henv hset)
  · intro hinv hnone
    unfold getOrCompute
    rw [if_pos hinv, hnone]
  · intro r₀ hinv hsome
    unfold getOrCompute
    rw [if_pos hinv, hsome]
    obtain ⟨e, hmem, hfa, hr⟩ := findInv_some hsome
    obtain ⟨env₀, hnk, hini, heval⟩ := hok.1 e hmem
    refine ⟨rfl, env₀, hnk, ?_, ?_⟩
    · rw [← hfa]
      exact hini
    · rw [← hr, heval, hfa]

/-- The C1 theorem applied at a concrete input: an empty call history,
the directive-free one-line file and the well-formed environment
`{"X": "1"}`; the invariant-cache miss branch returns the fresh
evaluation. -/
theorem get_or_compute_cache_behavior_witness :
    (getOrCompute (runCalls emptyCache []) faPlain [("X", "1")]).1 =
      evaluate faPlain [("X", "1")] :=
  (get_or_compute_cache_behavior [] faPlain [("X", "1")]
    (fun _ h => nomatch h) (by unfold NodupKeys; decide)).2.1 (by decide) rfl

/-- Counterexample to C1 as stated: after one call populates the
invariant cache for `faPlain` under `{"X": "1"}`, a second call under
the empty environment hits that entry and returns a result whose
`updated_macros` still binds `X`, while a fresh `evaluate faPlain []`
binds nothing — the returned result is not equal (even modulo order) to
the fresh evaluation for this call sequence. -/
theorem cache_hit_stale_macros :
    isMacroInvariant faPlain [("X", "1")] = true ∧
    isMacroInvariant faPlain [] = true ∧
    envLookup (getOrCompute (runCalls emptyCache [(faPlain, [("X", "1")])])
      faPlain []).1.updatedMacros "X" = some "1" ∧
    envLookup (evaluate faPlain []).updatedMacros "X" = none := by
  decide

/-- C2.  Invariance soundness fails: for `faDefineIf` (`#define A B` /
`#if A` / line / `#endif`) the conditional-macro set is `{A}`, the empty
environment and its extension by the fresh key `B` both satisfy the
claim's hypothesis (`conditional_macros ∩ keys(env) = ∅`, the new key
`B ∉ conditional_macros`), and `is_macro_invariant` accepts both — yet
the active lines differ (`[0]` vs `[0, 2]`), because `#if A` expands the
macro `A` recursively through its value `B`, which the added binding
defines.  The claimed equality of `active_lines` is false. -/
theorem invariance_violated_by_define_chain :
    conditionalMacros faDefineIf = ["A"] ∧
    ((conditionalMacros faDefineIf).all
      (fun m => !envContains [] m)) = true ∧
    ((conditionalMacros faDefineIf).all
      (fun m => !envContains ([] ++ [("B", "1")]) m)) = true ∧
    (conditionalMacros faDefineIf).contains "B" = false ∧
    isMacroInvariant faDefineIf [] = true ∧
    isMacroInvariant faDefineIf ([] ++ [("B", "1")]) = true ∧
    (evaluate faDefineIf []).activeLines = [0] ∧
    (evaluate faDefineIf ([] ++ [("B", "1")])).activeLines = [0, 2] := by
  decide

end Compiletools
